import Mathlib

/-!
# Fast marching (DO::Sara::FastMarching) — shallow embedding

Source: `src/cpp/src/DO/Sara/ImageProcessing/LevelSets/FastMarching.hpp`.

Modelling choices.

* The scalar type `T` of the C++ template is any linearly ordered field; the two
  operations of the C++ runtime that are not field operations,
  `std::numeric_limits<T>::max()` and `std::sqrt`, are carried by an `Arith T`
  record (the local solver takes `sqrt` directly).  Theorems "over exact real
  arithmetic" instantiate `T := ℝ` and `sqrt := Real.sqrt`; concrete runs
  instantiate `T := ℚ` with the largest finite `float` as `max()`.
* `Image<_, 2>` / `ImageView<_, 2>` are total functions on integer coordinates
  together with the sizes `width`, `height`; `img(n) = v` is `assign img n v`.
* `std::multiset<CoordsValue>` is the list of its elements in iteration order:
  sorted by `operator<` (which compares `value` only), equivalent elements in
  insertion order (`insert` places an element at the upper bound of its
  equivalence range, `find` returns the first element of the range).
* `std::int32_t` indices are integers; overflow is not modelled.
* The engine is the 2-D instance (`Eigen::Vector2i` in `initialize_alive_points`
  and `to_index`); the local solver and the offset table are modelled for every
  `N`, with vectors as lists of `N` coefficients.  The class
  `CoordinatesIterator` used by the general branch of `initialize_deltas` is not
  part of the sources at hand: the sequence of coordinates it visits is a
  parameter of `initialize_deltas_general`.
-/

namespace DO.Sara

/-- The `enum class FastMarchingState`. -/
inductive FastMarchingState where
  | Alive
  | Trial
  | Far
  | Forbidden
  deriving DecidableEq

/-- The `Eigen::Vector2i` coordinates `(x, y)` used by the engine. -/
abbrev coords_type := ℤ × ℤ

/-- Runtime operations on the scalar type that are not field operations. -/
structure Arith (T : Type) where
  /-- The value `std::numeric_limits<T>::max()`. -/
  maxValue : T
  /-- The function `std::sqrt`. -/
  sqrt : T → T

/-- The `struct CoordsValue`. -/
structure CoordsValue (T : Type) where
  coords : coords_type
  value : T
  deriving DecidableEq

/-- The `CoordsValue::operator<`: compares the values only. -/
def CoordsValue.less {T : Type} [LinearOrderedField T] (a b : CoordsValue T) : Bool :=
  decide (a.value < b.value)

/-- The `std::multiset::insert`: the new element goes to the upper bound of the
range of equivalent elements. -/
def multiset_insert {T : Type} [LinearOrderedField T] (x : CoordsValue T) :
    List (CoordsValue T) → List (CoordsValue T)
  | [] => [x]
  | h :: t => if x.less h then x :: h :: t else h :: multiset_insert x t

/-- The `std::multiset::find`: position of the first element that is not less
than `key`, provided `key` is not less than it either; `none` is `end()`. -/
def multiset_find {T : Type} [LinearOrderedField T] (key : CoordsValue T) :
    List (CoordsValue T) → Option ℕ
  | [] => none
  | h :: t =>
    if h.less key then (multiset_find key t).map (· + 1)
    else if key.less h then none
    else some 0

/-- The fields of `struct FastMarching<T, 2>`; `width`, `height` are
`_displacements.width()`, `_displacements.height()`. -/
@[ext]
structure FastMarching (T : Type) where
  width : ℤ
  height : ℤ
  _displacements : coords_type → T
  _states : coords_type → FastMarchingState
  _distances : coords_type → T
  _predecessors : coords_type → ℤ
  _trial_set : List (CoordsValue T)
  _limit : T

/-- The assignment `img(n) = v` on an image. -/
def assign {α : Type} (img : coords_type → α) (n : coords_type) (v : α) : coords_type → α :=
  fun c => if c = n then v else img c

/-- The member `_margin = coords_type::Ones()`. -/
def _margin : coords_type := (1, 1)

/-- The `initialize_deltas` for `N == 2`: the hard-coded table, in source order. -/
def initialize_deltas : List coords_type :=
  [(-1, -1), (-1, 0), (1, 0), (0, -1), (0, 1), (1, -1), (1, 1), (-1, 1)]

/-- The member `_deltas`. -/
def _deltas : List coords_type := initialize_deltas

/-- The `coords_type::Unit(i)` for `i = 0, 1`. -/
def units2 : List coords_type := [(1, 0), (0, 1)]

variable {T : Type} [LinearOrderedField T]

/-- The `reset`: fills the three fields; the trial set is not touched. -/
def reset (A : Arith T) (e : FastMarching T) : FastMarching T :=
  { e with
    _states := fun _ => FastMarchingState.Far
    _distances := fun _ => A.maxValue
    _predecessors := fun _ => -1 }

/-- The constructor: stores the cost view and the limit, default-constructs the
trial set (empty) and calls `reset`. -/
def FastMarching.new (A : Arith T) (width height : ℤ) (displacements : coords_type → T)
    (limit : T) : FastMarching T :=
  reset A
    { width := width
      height := height
      _displacements := displacements
      _states := fun _ => FastMarchingState.Far
      _distances := fun _ => A.maxValue
      _predecessors := fun _ => -1
      _trial_set := []
      _limit := limit }

/-- The `to_index`. -/
def to_index (e : FastMarching T) (p : coords_type) : ℤ :=
  p.2 * e.width + p.1

/-- The `to_coords`; `/` on `std::int32_t` truncates toward zero. -/
def to_coords (e : FastMarching T) (i : ℤ) : coords_type :=
  let y := Int.tdiv i e.width
  let x := i - y * e.width
  (x, y)

/-- The margin test of both neighbour loops: `true` when the `continue` is taken. -/
def outside_margin (e : FastMarching T) (n : coords_type) : Bool :=
  decide (n.1 < _margin.1) || decide (n.1 ≥ e.width - _margin.1) ||
  decide (n.2 < _margin.2) || decide (n.2 ≥ e.height - _margin.2)

/-- The `Eigen` reduction `minCoeff` of a (non-empty) coefficient vector. -/
def minCoeff : List T → T
  | [] => 0
  | a :: t => t.foldl min a

/-- The `Eigen` reduction `squaredNorm`. -/
def squaredNorm (us : List T) : T :=
  (us.map fun a => a ^ 2).sum

/-- The `find_min_coefficient`: column `j` of `umins` is `us` without its `j`-th
coefficient; the result is the least of the column minima. -/
def find_min_coefficient (us : List T) : T :=
  let N := us.length
  let umins := (List.range N).map fun j =>
    if j = 0 then (us.drop 1).take (N - 1)
    else if j = N - 1 then us.take (N - 1)
    else us.take j ++ (us.drop (j + 1)).take (N - j - 1)
  minCoeff (umins.map minCoeff)

/-- Lines 202-205 of `solve_eikonal_equation`: the upwind minimum on each axis;
`units` lists `coords_type::Unit(i)` for `i = 0 .. N-1`. -/
def axis_minima {C : Type} [Add C] [Sub C] (units : List C) (x : C) (u : C → T) : List T :=
  units.map fun d => min (u (x - d)) (u (x + d))

/-- The reduced discriminant `delta` of `solve_eikonal_equation` (lines 210-211)
for the vector `us` of axis minima, `N = us.length`. -/
def eikonal_delta (us : List T) (fx : T) : T :=
  let fx_inverse := 1 / fx
  us.sum ^ 2 - (us.length : T) * (squaredNorm us - fx_inverse ^ 2)

/-- Lines 206-227 of `solve_eikonal_equation`, on the vector `us` of axis minima
(`N = us.length`); `sqrt` is `std::sqrt`. -/
def solve_eikonal_from (sqrt : T → T) (us : List T) (fx : T) : T :=
  let N := us.length
  let fx_inverse := 1 / fx
  let usum := us.sum
  let delta := eikonal_delta us fx
  if delta ≥ 0 then (usum + sqrt delta) / (N : T)
  else if N = 2 then minCoeff us + fx_inverse
  else find_min_coefficient us + fx_inverse

/-- The `solve_eikonal_equation`. -/
def solve_eikonal_equation {C : Type} [Add C] [Sub C] (sqrt : T → T) (units : List C)
    (x : C) (fx : T) (u : C → T) : T :=
  solve_eikonal_from sqrt (axis_minima units x u) fx

/-- The `increase_priority`. -/
def increase_priority (e : FastMarching T) (p : coords_type) (value : T) : FastMarching T :=
  if value < e._distances p then
    let key : CoordsValue T := ⟨p, e._distances p⟩
    let erased :=
      match multiset_find key e._trial_set with
      | none => e._trial_set
      | some i =>
        match e._trial_set[i]? with
        | none => e._trial_set
        | some found => if found.coords = p then e._trial_set.eraseIdx i else e._trial_set
    { e with _trial_set := multiset_insert ⟨p, value⟩ erased }
  else e

/-- The body of the inner loop of `initialize_alive_points` for seed `p` and
offset `delta`. -/
def init_visit (p : coords_type) (e : FastMarching T) (delta : coords_type) : FastMarching T :=
  let n := p + delta
  if outside_margin e n then e
  else if e._states n = FastMarchingState.Alive ∨ e._states n = FastMarchingState.Forbidden then e
  else
    let e1 := { e with _states := assign e._states n FastMarchingState.Trial }
    let e2 := { e1 with _distances := assign e1._distances n (e1._displacements n) }
    let e3 := { e2 with _predecessors := assign e2._predecessors n (to_index e2 p) }
    { e3 with _trial_set := multiset_insert ⟨n, e3._distances n⟩ e3._trial_set }

/-- The first loop of `initialize_alive_points`. -/
def mark_alive (e : FastMarching T) (points : List coords_type) : FastMarching T :=
  points.foldl (fun e p => { e with _states := assign e._states p FastMarchingState.Alive }) e

/-- The `initialize_alive_points`. -/
def initialize_alive_points (e : FastMarching T) (points : List coords_type) : FastMarching T :=
  points.foldl (fun e p => _deltas.foldl (init_visit p) e) (mark_alive e points)

/-- The body of the neighbour loop of `run` for the extracted point `p` and
offset `delta`. -/
def relax (A : Arith T) (p : coords_type) (e : FastMarching T) (delta : coords_type) :
    FastMarching T :=
  let n := p + delta
  if outside_margin e n then e
  else if e._states n = FastMarchingState.Alive ∨ e._states n = FastMarchingState.Forbidden then e
  else
    let new_dist_n := solve_eikonal_equation A.sqrt units2 n (e._displacements n) e._distances
    let e1 :=
      if new_dist_n < e._distances n then
        { e with
          _distances := assign e._distances n new_dist_n
          _predecessors := assign e._predecessors n (to_index e p) }
      else e
    let e2 :=
      if e1._states n = FastMarchingState.Far then
        { e1 with
          _states := assign e1._states n FastMarchingState.Trial
          _trial_set := multiset_insert ⟨n, e1._distances n⟩ e1._trial_set }
      else e1
    if e2._states n = FastMarchingState.Trial then increase_priority e2 n (e2._distances n)
    else e2

/-- One iteration of the `while` loop of `run` (identity on an empty trial set). -/
def run_step (A : Arith T) (e : FastMarching T) : FastMarching T :=
  match e._trial_set with
  | [] => e
  | top :: rest =>
    let p := top.coords
    let e1 := { e with _trial_set := rest }
    if e1._states p = FastMarchingState.Alive then e1
    else _deltas.foldl (relax A p) e1

/-- The `while` loop of `run`, at most `fuel` iterations. -/
def run_loop (A : Arith T) : ℕ → FastMarching T → FastMarching T
  | 0, e => e
  | fuel + 1, e =>
    match e._trial_set with
    | [] => e
    | _ :: _ => run_loop A fuel (run_step A e)

/-- The coordinates inside the one-cell margin. -/
def margin_cells (e : FastMarching T) : List coords_type :=
  (List.range (e.width - 2).toNat).flatMap fun (i : ℕ) =>
    (List.range (e.height - 2).toNat).map fun (j : ℕ) => ((i : ℤ) + 1, (j : ℤ) + 1)

/-- The number of cells inside the margin whose state is `Far`. -/
def far_count (e : FastMarching T) : ℕ :=
  (margin_cells e).countP fun c => e._states c = FastMarchingState.Far

/-- The `run`: the loop is iterated `|trial set| + far_count` times, which
exhausts the trial set (`run_trial_set_empty`). -/
def run (A : Arith T) (e : FastMarching T) : FastMarching T :=
  run_loop A (e._trial_set.length + far_count e) e

/-- The distance-field values of the points extracted by the first `fuel`
iterations of `run` that pass the `Alive` test, each read at its extraction. -/
def extraction_distances (A : Arith T) : ℕ → FastMarching T → List T
  | 0, _ => []
  | fuel + 1, e =>
    match e._trial_set with
    | [] => []
    | top :: _ =>
      if e._states top.coords = FastMarchingState.Alive then
        extraction_distances A fuel (run_step A e)
      else e._distances top.coords :: extraction_distances A fuel (run_step A e)

/-- The distance-field values read at the extractions of a whole `run`. -/
def run_extraction_distances (A : Arith T) (e : FastMarching T) : List T :=
  extraction_distances A (e._trial_set.length + far_count e) e

/-- A square root on the rationals, exact on squares of rationals. -/
def ratSqrt (q : ℚ) : ℚ :=
  (Nat.sqrt q.num.toNat : ℚ) / (Nat.sqrt q.den : ℚ)

/-- Exact rational arithmetic with the largest finite `float` as `max()`. -/
def ratArith : Arith ℚ :=
  { maxValue := 340282346638528859811704183484516925440
    sqrt := ratSqrt }

/-! ## Auxiliary predicates, measures and concrete engines -/

/-- Every cell of row `k` inside the margin is `Forbidden`. -/
def row_guard (k : ℤ) (e : FastMarching T) : Prop :=
  ∀ c : coords_type, c.2 = k → outside_margin e c = false →
    e._states c = FastMarchingState.Forbidden

/-- Every entry of the trial set lies strictly below row `k`. -/
def trial_below (k : ℤ) (e : FastMarching T) : Prop :=
  ∀ x ∈ e._trial_set, x.coords.2 < k

/-- The engine `e1` has the sizes of `e` and agrees with it on rows `≥ k`. -/
def same_from (k : ℤ) (e e1 : FastMarching T) : Prop :=
  e1.width = e.width ∧ e1.height = e.height ∧
  ∀ c : coords_type, k ≤ c.2 →
    e1._states c = e._states c ∧ e1._distances c = e._distances c ∧
    e1._predecessors c = e._predecessors c

/-- The loop measure of `run`: entries in the trial set plus `Far` cells inside
the margin. -/
def run_measure (e : FastMarching T) : ℕ :=
  e._trial_set.length + far_count e

/-- The 3x3 grid of uniform cost 1, freshly constructed. -/
def grid3 : FastMarching ℚ :=
  FastMarching.new ratArith 3 3 (fun _ => 1) ratArith.maxValue

/-- The cost field with cost 1 at `(1, 1)` and cost 4 elsewhere. -/
def cost14 : coords_type → ℚ :=
  fun c => if c = (1, 1) then 1 else 4

/-- The 4x3 grid with costs `cost14`, after `initialize_alive_points` with the
seed `(1, 0)`. -/
def grid43 : FastMarching ℚ :=
  initialize_alive_points (FastMarching.new ratArith 4 3 cost14 ratArith.maxValue) [(1, 0)]

/-- The cost field with cost 1 at `(1, 1)`, cost 4 at `(2, 1)` and cost 3
elsewhere. -/
def cost143 : coords_type → ℚ :=
  fun c => if c = (1, 1) then 1 else if c = (2, 1) then 4 else 3

/-- The 5x3 grid with costs `cost143`, after `initialize_alive_points` with the
seed `(2, 0)`. -/
def grid53 : FastMarching ℚ :=
  initialize_alive_points (FastMarching.new ratArith 5 3 cost143 ratArith.maxValue) [(2, 0)]

/-- The 4x3 grid of uniform cost 5, after `initialize_alive_points` with the seed
`(1, 0)`: the two cells inside the margin are `Trial` at distance 5. -/
def grid43u : FastMarching ℚ :=
  initialize_alive_points (FastMarching.new ratArith 4 3 (fun _ => 5) ratArith.maxValue) [(1, 0)]

/-- The caller's writes `_states(x, k) = Forbidden` for every cell `(x, k)` of
row `k` of the grid. -/
def forbid_row (k : ℤ) (e : FastMarching T) : FastMarching T :=
  { e with
    _states := fun c =>
      if c.2 = k ∧ 0 ≤ c.1 ∧ c.1 < e.width then FastMarchingState.Forbidden else e._states c }

/-- The forbidden-row scenario: a freshly constructed engine, row `k` marked
`Forbidden`, then `initialize_alive_points(seeds)` and `run()`. -/
def forbidden_row_run (A : Arith T) (width height : ℤ) (cost : coords_type → T) (limit : T)
    (k : ℤ) (seeds : List coords_type) : FastMarching T :=
  run A (initialize_alive_points (forbid_row k (FastMarching.new A width height cost limit)) seeds)

/-- The engine `e1` has the sizes, the cost view and the limit of `e`. -/
def same_grid (e e1 : FastMarching T) : Prop :=
  e1.width = e.width ∧ e1.height = e.height ∧ e1._displacements = e._displacements ∧
  e1._limit = e._limit

/-- The number of executions of the loop body of `run` within `fuel` iterations. -/
def run_iterations (A : Arith T) : ℕ → FastMarching T → ℕ
  | 0, _ => 0
  | fuel + 1, e =>
    match e._trial_set with
    | [] => 0
    | _ :: _ => run_iterations A fuel (run_step A e) + 1

/-- The cell `c` is `Alive` in `e1` and has the distance and predecessor it has in `e`. -/
def kept_alive (e : FastMarching T) (c : coords_type) (e1 : FastMarching T) : Prop :=
  e1._states c = FastMarchingState.Alive ∧ e1._distances c = e._distances c ∧
  e1._predecessors c = e._predecessors c

/-- The distance of `c` in `e1` is its distance in `e` or its cost. -/
def kept_or_cost (e : FastMarching T) (c : coords_type) (e1 : FastMarching T) : Prop :=
  e1._displacements = e._displacements ∧
  (e1._distances c = e._distances c ∨ e1._distances c = e._displacements c)

/-- The cell `n` is inside the margin and neither `Alive` nor `Forbidden`. -/
def open_cell (n : coords_type) (e : FastMarching T) : Prop :=
  outside_margin e n = false ∧ e._states n ≠ FastMarchingState.Alive ∧
  e._states n ≠ FastMarchingState.Forbidden

/-- The cell `n` is as `initialize_alive_points` leaves a neighbour of a seed:
`Trial`, with its cost as distance, the index of an adjacent seed as predecessor,
and an entry `(n, cost(n))` in the trial set. -/
def seeded (seeds : List coords_type) (n : coords_type) (e : FastMarching T) : Prop :=
  e._states n = FastMarchingState.Trial ∧
  e._distances n = e._displacements n ∧
  (∃ q ∈ seeds, (∃ d ∈ _deltas, n = q + d) ∧ e._predecessors n = to_index e q) ∧
  (⟨n, e._displacements n⟩ : CoordsValue T) ∈ e._trial_set

/-- An executed write `_predecessors(cell) = to_index(source)`, with the state of
`source` at the moment of the write. -/
structure PredWrite where
  cell : coords_type
  source : coords_type
  source_state : FastMarchingState
  deriving DecidableEq

/-- The predecessor writes of a loop `for b in l: a = f a b`, where the step on
`b` from `a` executes the writes `g a b`. -/
def foldl_writes {α β : Type} (f : α → β → α) (g : α → β → List PredWrite) :
    List β → α → List PredWrite
  | [], _ => []
  | b :: t, a => g a b ++ foldl_writes f g t (f a b)

/-- The predecessor write (line 115) of one neighbour visit of
`initialize_alive_points`; `_states(n) = Trial` (line 113) is executed before it. -/
def init_visit_writes (p : coords_type) (e : FastMarching T) (delta : coords_type) :
    List PredWrite :=
  let n := p + delta
  if outside_margin e n then []
  else if e._states n = FastMarchingState.Alive ∨ e._states n = FastMarchingState.Forbidden then []
  else [⟨n, p, assign e._states n FastMarchingState.Trial p⟩]

/-- The predecessor writes of `initialize_alive_points`. -/
def initialize_alive_points_writes (e : FastMarching T) (points : List coords_type) :
    List PredWrite :=
  foldl_writes (fun e p => _deltas.foldl (init_visit p) e)
    (fun e p => foldl_writes (init_visit p) (init_visit_writes p) _deltas e)
    points (mark_alive e points)

/-- The predecessor write (line 164) of one neighbour visit of `run`. -/
def relax_writes (A : Arith T) (p : coords_type) (e : FastMarching T) (delta : coords_type) :
    List PredWrite :=
  let n := p + delta
  if outside_margin e n then []
  else if e._states n = FastMarchingState.Alive ∨ e._states n = FastMarchingState.Forbidden then []
  else if solve_eikonal_equation A.sqrt units2 n (e._displacements n) e._distances <
      e._distances n then [⟨n, p, e._states p⟩]
  else []

/-- The predecessor writes of one iteration of `run`. -/
def run_step_writes (A : Arith T) (e : FastMarching T) : List PredWrite :=
  match e._trial_set with
  | [] => []
  | top :: rest =>
    let p := top.coords
    let e1 := { e with _trial_set := rest }
    if e1._states p = FastMarchingState.Alive then []
    else foldl_writes (relax A p) (relax_writes A p) _deltas e1

/-- The predecessor writes of at most `fuel` iterations of `run`. -/
def run_loop_writes (A : Arith T) : ℕ → FastMarching T → List PredWrite
  | 0, _ => []
  | fuel + 1, e =>
    match e._trial_set with
    | [] => []
    | _ :: _ => run_step_writes A e ++ run_loop_writes A fuel (run_step A e)

/-- The predecessor writes of `run`. -/
def run_writes (A : Arith T) (e : FastMarching T) : List PredWrite :=
  run_loop_writes A (e._trial_set.length + far_count e) e

/-- A call made by the user of the engine: `initialize_alive_points(points)` or
`run()`. -/
inductive Operation where
  | init (points : List coords_type)
  | run

/-- The engine after a sequence of calls. -/
def execute (A : Arith T) : List Operation → FastMarching T → FastMarching T
  | [], e => e
  | Operation.init points :: t, e => execute A t (initialize_alive_points e points)
  | Operation.run :: t, e => execute A t (run A e)

/-- The predecessor writes of a sequence of calls. -/
def execute_writes (A : Arith T) : List Operation → FastMarching T → List PredWrite
  | [], _ => []
  | Operation.init points :: t, e =>
    initialize_alive_points_writes e points ++
      execute_writes A t (initialize_alive_points e points)
  | Operation.run :: t, e => run_writes A e ++ execute_writes A t (run A e)

/-- Every entry of the trial set belongs to a cell that is `Trial` or `Alive`. -/
def tracked (e : FastMarching T) : Prop :=
  ∀ x ∈ e._trial_set, e._states x.coords = FastMarchingState.Trial ∨
    e._states x.coords = FastMarchingState.Alive

/-- The source of the write is `Alive` or `Trial` and the written cell is one of
its 8 neighbours. -/
def sound_write (w : PredWrite) : Prop :=
  (w.source_state = FastMarchingState.Alive ∨ w.source_state = FastMarchingState.Trial) ∧
  ∃ d ∈ _deltas, w.cell = w.source + d

/-- The end-to-end scenario: the 5x5 grid of uniform cost 1, freshly constructed,
`initialize_alive_points({(2,2)})`, `run()`. -/
def scenario5 (A : Arith T) (limit : T) : FastMarching T :=
  run A (initialize_alive_points (FastMarching.new A 5 5 (fun _ => 1) limit) [(2, 2)])

/-- The facts kept by the scenario on the 5x5 grid: the sizes and the unit cost,
every distance between 1 and `max()`, and distance `max()` at `(0, 0)`. -/
def scenario5_bounds (A : Arith T) (e : FastMarching T) : Prop :=
  e.width = 5 ∧ e.height = 5 ∧ e._displacements = (fun _ => 1) ∧
  (∀ c, 1 ≤ e._distances c) ∧ (∀ c, e._distances c ≤ A.maxValue) ∧
  e._distances (0, 0) = A.maxValue

/-- The 8 neighbours of the seed `(2, 2)` are at distance 1. -/
def scenario5_ring (e : FastMarching T) : Prop :=
  ∀ d ∈ _deltas, e._distances ((2, 2) + d) = 1

/-- The `pow<N>(x)` (on unbounded integers). -/
def pow : ℕ → ℤ → ℤ
  | 0, _ => 1
  | 1, x => x
  | n + 2, x => x * pow (n + 1) x

/-- The integer vectors of `{-1, 0, 1}^N`, as lists of `N` coordinates. -/
def unit_box : ℕ → List (List ℤ)
  | 0 => [[]]
  | n + 1 =>
    (unit_box n).map (fun v => (-1) :: v) ++ (unit_box n).map (fun v => 0 :: v) ++
      (unit_box n).map (fun v => 1 :: v)

/-- The loop of the general branch of `initialize_deltas` over the coordinates
`*c` that remain to be visited, with the array `deltas` (of `size` slots) and the
index `i`; `none` is a write past the end of the array. -/
def initialize_deltas_loop (N size : ℕ) :
    List (List ℤ) → List (List ℤ) × ℕ → Option (List (List ℤ) × ℕ)
  | [], st => some st
  | c :: cs, (deltas, i) =>
    if c = List.replicate N 0 then initialize_deltas_loop N size cs (deltas, i)
    else if i < size then initialize_deltas_loop N size cs (deltas.set i c, i + 1)
    else none

/-- The general branch (`N != 2`) of `initialize_deltas`: the array of
`pow<N>(3) - 1` offsets and the final value of the index `i`. The sequence `cs` of
the coordinates visited by `CoordinatesIterator{start, end}` (a class that is
not part of the sources at hand) is a parameter. -/
def initialize_deltas_general (N : ℕ) (cs : List (List ℤ)) : Option (List (List ℤ) × ℕ) :=
  initialize_deltas_loop N (pow N 3 - 1).toNat cs
    (List.replicate (pow N 3 - 1).toNat (List.replicate N 0), 0)

/-- The cell `n` has been reached by the propagation: it is `Trial` and has an
entry in the trial set. -/
def propagated (n : coords_type) (e : FastMarching T) : Prop :=
  e._states n = FastMarchingState.Trial ∧ ∃ v : T, (⟨n, v⟩ : CoordsValue T) ∈ e._trial_set

/-- The cell `n` lies inside the margin and is `Far` or already `propagated`. -/
def pending (n : coords_type) (e : FastMarching T) : Prop :=
  outside_margin e n = false ∧ (e._states n = FastMarchingState.Far ∨ propagated n e)

/-! # Theorems -/

set_option linter.unusedSectionVars false

set_option maxRecDepth 100000

/-! ## The trial set as a list -/

theorem length_multiset_insert (x : CoordsValue T) (l : List (CoordsValue T)) :
    (multiset_insert x l).length = l.length + 1 := by
  induction l with
  | nil => rfl
  | cons h t ih =>
    unfold multiset_insert
    split_ifs <;> simp [ih]

theorem mem_multiset_insert (x y : CoordsValue T) (l : List (CoordsValue T)) :
    y ∈ multiset_insert x l ↔ y = x ∨ y ∈ l := by
  induction l with
  | nil => simp [multiset_insert]
  | cons h t ih =>
    unfold multiset_insert
    split_ifs
    · simp
    · simp only [List.mem_cons, ih]
      tauto

theorem multiset_find_value (key : CoordsValue T) (l : List (CoordsValue T)) (i : ℕ)
    (h : multiset_find key l = some i) :
    ∃ x, l[i]? = some x ∧ x.value = key.value := by
  induction l generalizing i with
  | nil => simp [multiset_find] at h
  | cons a t ih =>
    unfold multiset_find at h
    split_ifs at h with h1 h2
    · cases hf : multiset_find key t with
      | none => simp [hf] at h
      | some j =>
        simp only [hf, Option.map_some', Option.some.injEq] at h
        obtain ⟨x, hx, hv⟩ := ih j hf
        exact ⟨x, by simp [← h, hx], hv⟩
    · simp only [Option.some.injEq] at h
      subst h
      refine ⟨a, by simp, ?_⟩
      simp only [CoordsValue.less, decide_eq_true_eq, not_lt] at h1 h2
      exact le_antisymm h2 h1

/-! ## Shape of the loop bodies -/

theorem assign_self {α : Type} (img : coords_type → α) (n : coords_type) :
    assign img n (img n) = img := by
  funext c
  unfold assign
  split_ifs with h
  · rw [h]
  · rfl

theorem assign_ne {α : Type} (img : coords_type → α) (n c : coords_type) (v : α) (h : c ≠ n) :
    assign img n v c = img c := by
  simp [assign, h]

theorem assign_same {α : Type} (img : coords_type → α) (n : coords_type) (v : α) :
    assign img n v n = v := by
  simp [assign]

/-- Called as in `run`, with the current distance of `p`, `increase_priority`
changes nothing: its guard `value < _distances(p)` is false. -/
theorem increase_priority_self (e : FastMarching T) (p : coords_type) :
    increase_priority e p (e._distances p) = e := by
  unfold increase_priority
  simp

/-- The effect of one neighbour visit of `run`: either nothing, or the
neighbour `n = p + delta` (inside the margin, neither `Alive` nor `Forbidden`)
gets state `Trial`, a distance `dv` and a predecessor `pv`, and is inserted in the
trial set when it was `Far`. -/
theorem relax_shape (A : Arith T) (p : coords_type) (e : FastMarching T) (delta : coords_type) :
    relax A p e delta = e ∨
    (outside_margin e (p + delta) = false ∧
      e._states (p + delta) ≠ FastMarchingState.Alive ∧
      e._states (p + delta) ≠ FastMarchingState.Forbidden ∧
      ∃ (dv : T) (pv : ℤ) (ts : List (CoordsValue T)),
        relax A p e delta =
          { e with
            _states := assign e._states (p + delta) FastMarchingState.Trial
            _distances := assign e._distances (p + delta) dv
            _predecessors := assign e._predecessors (p + delta) pv
            _trial_set := ts } ∧
        dv ≤ e._distances (p + delta) ∧
        ((e._states (p + delta) = FastMarchingState.Trial ∧ ts = e._trial_set) ∨
          (e._states (p + delta) = FastMarchingState.Far ∧
            ts = multiset_insert ⟨p + delta, dv⟩ e._trial_set))) := by
  by_cases hout : outside_margin e (p + delta) = true
  · left
    simp [relax, hout]
  by_cases hst : e._states (p + delta) = FastMarchingState.Alive ∨
      e._states (p + delta) = FastMarchingState.Forbidden
  · left
    simp [relax, hst]
  right
  simp only [Bool.not_eq_true] at hout
  push_neg at hst
  refine ⟨hout, hst.1, hst.2, ?_⟩
  have hcases : e._states (p + delta) = FastMarchingState.Trial ∨
      e._states (p + delta) = FastMarchingState.Far := by
    cases h : e._states (p + delta) <;> simp_all
  have hkeep : e._states (p + delta) = FastMarchingState.Trial →
      assign e._states (p + delta) FastMarchingState.Trial = e._states := by
    intro h
    have h2 := assign_self e._states (p + delta)
    rwa [h] at h2
  by_cases hlt : solve_eikonal_equation A.sqrt units2 (p + delta) (e._displacements (p + delta))
      e._distances < e._distances (p + delta)
  · rcases hcases with h | h
    · refine ⟨_, to_index e p, e._trial_set, ?_, le_of_lt hlt, Or.inl ⟨h, rfl⟩⟩
      ext1 <;> simp [relax, hout, hst, hlt, h, increase_priority, assign_same, hkeep h]
    · refine ⟨_, to_index e p, _, ?_, le_of_lt hlt, Or.inr ⟨h, rfl⟩⟩
      ext1 <;> simp [relax, hout, hst, hlt, h, increase_priority, assign_same]
  · rcases hcases with h | h
    · refine ⟨e._distances (p + delta), e._predecessors (p + delta), e._trial_set, ?_, le_refl _,
        Or.inl ⟨h, rfl⟩⟩
      ext1 <;> simp [relax, hout, hst, hlt, h, increase_priority, assign_self, hkeep h]
    · refine ⟨e._distances (p + delta), e._predecessors (p + delta), _, ?_, le_refl _,
        Or.inr ⟨h, rfl⟩⟩
      ext1 <;> simp [relax, hout, hst, hlt, h, increase_priority, assign_same, assign_self]

/-- The effect of one neighbour visit of `initialize_alive_points`: either
nothing, or the neighbour `n = p + delta` becomes `Trial` with its own cost as
distance and `p` as predecessor, and is inserted in the trial set. -/
theorem init_visit_shape (p : coords_type) (e : FastMarching T) (delta : coords_type) :
    init_visit p e delta = e ∨
    (outside_margin e (p + delta) = false ∧
      e._states (p + delta) ≠ FastMarchingState.Alive ∧
      e._states (p + delta) ≠ FastMarchingState.Forbidden ∧
      init_visit p e delta =
        { e with
          _states := assign e._states (p + delta) FastMarchingState.Trial
          _distances := assign e._distances (p + delta) (e._displacements (p + delta))
          _predecessors := assign e._predecessors (p + delta) (to_index e p)
          _trial_set :=
            multiset_insert ⟨p + delta, e._displacements (p + delta)⟩ e._trial_set }) := by
  by_cases hout : outside_margin e (p + delta) = true
  · left
    simp [init_visit, hout]
  by_cases hst : e._states (p + delta) = FastMarchingState.Alive ∨
      e._states (p + delta) = FastMarchingState.Forbidden
  · left
    simp [init_visit, hst]
  right
  simp only [Bool.not_eq_true] at hout
  push_neg at hst
  refine ⟨hout, hst.1, hst.2, ?_⟩
  ext1 <;> simp [init_visit, hout, hst, assign_same, to_index]

theorem deltas_snd_le : ∀ d ∈ _deltas, d.2 ≤ 1 := by
  decide

/-! ## Propagation cannot cross a `Forbidden` row -/

theorem same_from_refl (k : ℤ) (e : FastMarching T) : same_from k e e :=
  ⟨rfl, rfl, fun _ _ => ⟨rfl, rfl, rfl⟩⟩

theorem outside_margin_congr (e e1 : FastMarching T) (hw : e1.width = e.width)
    (hh : e1.height = e.height) (c : coords_type) :
    outside_margin e1 c = outside_margin e c := by
  simp [outside_margin, hw, hh]

theorem row_guard_of_same_from (k : ℤ) (e0 e : FastMarching T) (h0 : row_guard k e0)
    (h : same_from k e0 e) : row_guard k e := by
  intro c hc hout
  rw [outside_margin_congr e0 e h.1 h.2.1] at hout
  rw [(h.2.2 c (le_of_eq hc.symm)).1]
  exact h0 c hc hout

theorem relax_blocked (A : Arith T) (k : ℤ) (e0 e : FastMarching T) (p delta : coords_type)
    (h0 : row_guard k e0) (hs : same_from k e0 e) (ht : trial_below k e)
    (hp : p.2 < k) (hd : delta.2 ≤ 1) :
    same_from k e0 (relax A p e delta) ∧ trial_below k (relax A p e delta) := by
  rcases relax_shape A p e delta with h | ⟨hout, _, hforb, dv, pv, ts, heq, _, hts⟩
  · rw [h]
    exact ⟨hs, ht⟩
  have hn : (p + delta).2 < k := by
    have hle : (p + delta).2 ≤ k := by
      simp only [Prod.snd_add]
      omega
    rcases lt_or_eq_of_le hle with h | h
    · exact h
    · exact absurd (row_guard_of_same_from k e0 e h0 hs _ h hout) hforb
  rw [heq]
  refine ⟨⟨hs.1, hs.2.1, ?_⟩, ?_⟩
  · intro c hc
    have hne : c ≠ p + delta := by
      intro h
      rw [h] at hc
      omega
    simp only [assign_ne _ _ _ _ hne]
    exact hs.2.2 c hc
  · intro x hx
    simp only at hx
    rcases hts with ⟨_, h⟩ | ⟨_, h⟩
    · rw [h] at hx
      exact ht x hx
    · rw [h, mem_multiset_insert] at hx
      rcases hx with hx | hx
      · rw [hx]
        exact hn
      · exact ht x hx

theorem init_visit_blocked (k : ℤ) (e0 e : FastMarching T) (p delta : coords_type)
    (h0 : row_guard k e0) (hs : same_from k e0 e) (ht : trial_below k e)
    (hp : p.2 < k) (hd : delta.2 ≤ 1) :
    same_from k e0 (init_visit p e delta) ∧ trial_below k (init_visit p e delta) := by
  rcases init_visit_shape p e delta with h | ⟨hout, _, hforb, heq⟩
  · rw [h]
    exact ⟨hs, ht⟩
  have hn : (p + delta).2 < k := by
    have hle : (p + delta).2 ≤ k := by
      simp only [Prod.snd_add]
      omega
    rcases lt_or_eq_of_le hle with h | h
    · exact h
    · exact absurd (row_guard_of_same_from k e0 e h0 hs _ h hout) hforb
  rw [heq]
  refine ⟨⟨hs.1, hs.2.1, ?_⟩, ?_⟩
  · intro c hc
    have hne : c ≠ p + delta := by
      intro h
      rw [h] at hc
      omega
    simp only [assign_ne _ _ _ _ hne]
    exact hs.2.2 c hc
  · intro x hx
    simp only [mem_multiset_insert] at hx
    rcases hx with hx | hx
    · rw [hx]
      exact hn
    · exact ht x hx

/-- A loop over offsets keeps the two facts that each visit keeps. -/
theorem foldl_blocked (f : FastMarching T → coords_type → FastMarching T) (k : ℤ)
    (e0 : FastMarching T)
    (hf : ∀ (e : FastMarching T) (d : coords_type), d.2 ≤ 1 → same_from k e0 e →
      trial_below k e → same_from k e0 (f e d) ∧ trial_below k (f e d))
    (ds : List coords_type) (hds : ∀ d ∈ ds, d.2 ≤ 1) (e : FastMarching T)
    (hs : same_from k e0 e) (ht : trial_below k e) :
    same_from k e0 (ds.foldl f e) ∧ trial_below k (ds.foldl f e) := by
  induction ds generalizing e with
  | nil => exact ⟨hs, ht⟩
  | cons d t ih =>
    simp only [List.foldl_cons]
    have h1 := hf e d (hds d (List.mem_cons_self _ _)) hs ht
    exact ih (fun d hd => hds d (List.mem_cons_of_mem _ hd)) _ h1.1 h1.2

theorem run_step_blocked (A : Arith T) (k : ℤ) (e0 e : FastMarching T)
    (h0 : row_guard k e0) (hs : same_from k e0 e) (ht : trial_below k e) :
    same_from k e0 (run_step A e) ∧ trial_below k (run_step A e) := by
  unfold run_step
  cases hts : e._trial_set with
  | nil => exact ⟨hs, ht⟩
  | cons top rest =>
    simp only
    have htop : top.coords.2 < k := ht top (by simp [hts])
    have hs1 : same_from k e0 { e with _trial_set := rest } := hs
    have ht1 : trial_below k { e with _trial_set := rest } := by
      intro x hx
      exact ht x (by simp only [hts]; exact List.mem_cons_of_mem _ hx)
    split_ifs
    · exact ⟨hs1, ht1⟩
    · exact foldl_blocked (relax A top.coords) k e0
        (fun e d hd hs ht => relax_blocked A k e0 e top.coords d h0 hs ht htop hd)
        _deltas deltas_snd_le _ hs1 ht1

theorem run_loop_blocked (A : Arith T) (k : ℤ) (e0 : FastMarching T) (h0 : row_guard k e0)
    (fuel : ℕ) (e : FastMarching T) (hs : same_from k e0 e) (ht : trial_below k e) :
    same_from k e0 (run_loop A fuel e) ∧ trial_below k (run_loop A fuel e) := by
  induction fuel generalizing e with
  | zero => exact ⟨hs, ht⟩
  | succ n ih =>
    unfold run_loop
    split
    · exact ⟨hs, ht⟩
    · have h1 := run_step_blocked A k e0 e h0 hs ht
      exact ih _ h1.1 h1.2

theorem mark_alive_blocked (k : ℤ) (e0 : FastMarching T) (points : List coords_type)
    (hp : ∀ p ∈ points, p.2 < k) (e : FastMarching T)
    (hs : same_from k e0 e) (ht : trial_below k e) :
    same_from k e0 (mark_alive e points) ∧ trial_below k (mark_alive e points) := by
  unfold mark_alive
  induction points generalizing e with
  | nil => exact ⟨hs, ht⟩
  | cons p t ih =>
    simp only [List.foldl_cons]
    apply ih (fun q hq => hp q (List.mem_cons_of_mem _ hq))
    · refine ⟨hs.1, hs.2.1, ?_⟩
      intro c hc
      have hne : c ≠ p := by
        intro h
        have := hp p (List.mem_cons_self _ _)
        rw [h] at hc
        omega
      simp only [assign_ne _ _ _ _ hne]
      exact hs.2.2 c hc
    · exact ht

theorem initialize_alive_points_blocked (k : ℤ) (e0 : FastMarching T) (h0 : row_guard k e0)
    (points : List coords_type) (hp : ∀ p ∈ points, p.2 < k) (e : FastMarching T)
    (hs : same_from k e0 e) (ht : trial_below k e) :
    same_from k e0 (initialize_alive_points e points) ∧
      trial_below k (initialize_alive_points e points) := by
  unfold initialize_alive_points
  have h1 := mark_alive_blocked k e0 points hp e hs ht
  generalize mark_alive e points = e1 at h1
  obtain ⟨hs1, ht1⟩ := h1
  have key : ∀ (seeds : List coords_type), (∀ p ∈ seeds, p.2 < k) → ∀ e2 : FastMarching T,
      same_from k e0 e2 → trial_below k e2 →
      same_from k e0 (seeds.foldl (fun e p => _deltas.foldl (init_visit p) e) e2) ∧
      trial_below k (seeds.foldl (fun e p => _deltas.foldl (init_visit p) e) e2) := by
    intro seeds
    induction seeds with
    | nil => exact fun _ e2 h2 h3 => ⟨h2, h3⟩
    | cons p t ih =>
      intro hpt e2 h2 h3
      simp only [List.foldl_cons]
      have hp1 : p.2 < k := hpt p (List.mem_cons_self _ _)
      have h4 := foldl_blocked (init_visit p) k e0
        (fun e d hd hs ht => init_visit_blocked k e0 e p d h0 hs ht hp1 hd)
        _deltas deltas_snd_le e2 h2 h3
      exact ih (fun q hq => hpt q (List.mem_cons_of_mem _ hq)) _ h4.1 h4.2
  exact key points hp e1 hs1 ht1

/-! ## Termination of `run` -/

theorem mem_margin_cells (e : FastMarching T) (n : coords_type)
    (h : outside_margin e n = false) : n ∈ margin_cells e := by
  simp only [outside_margin, _margin, Bool.or_eq_false_iff, decide_eq_false_iff_not, not_lt,
    ge_iff_le, not_le] at h
  obtain ⟨⟨⟨h1, h2⟩, h3⟩, h4⟩ := h
  unfold margin_cells
  have hx : (n.1 - 1).toNat < (e.width - 2).toNat := by omega
  have hy : (n.2 - 1).toNat < (e.height - 2).toNat := by omega
  refine List.mem_flatMap.mpr ⟨(n.1 - 1).toNat, List.mem_range.mpr hx,
    List.mem_map.mpr ⟨(n.2 - 1).toNat, List.mem_range.mpr hy, ?_⟩⟩
  ext
  · simp only
    omega
  · simp only
    omega

theorem countP_assign_lt (l : List coords_type) (st : coords_type → FastMarchingState)
    (n : coords_type) (hn : n ∈ l) (hfar : st n = FastMarchingState.Far) :
    l.countP (fun c => assign st n FastMarchingState.Trial c = FastMarchingState.Far) + 1 ≤
      l.countP (fun c => st c = FastMarchingState.Far) := by
  have hle : ∀ l2 : List coords_type,
      l2.countP (fun c => assign st n FastMarchingState.Trial c = FastMarchingState.Far) ≤
        l2.countP (fun c => st c = FastMarchingState.Far) := by
    intro l2
    apply List.countP_mono_left
    intro c _ hc
    simp only [assign, decide_eq_true_eq] at hc ⊢
    split_ifs at hc with h
    exact hc
  induction l with
  | nil => simp at hn
  | cons a t ih =>
    simp only [List.countP_cons]
    rcases List.mem_cons.mp hn with h | h
    · subst h
      have := hle t
      simp [assign_same, hfar]
      omega
    · have h1 := ih h
      have h2 : (if decide (assign st n FastMarchingState.Trial a = FastMarchingState.Far) = true
          then 1 else 0) ≤ (if decide (st a = FastMarchingState.Far) = true then 1 else 0) := by
        by_cases ha : a = n
        · simp [ha, assign_same]
        · simp [assign_ne _ _ _ _ ha]
      omega

theorem relax_measure (A : Arith T) (p : coords_type) (e : FastMarching T) (delta : coords_type) :
    run_measure (relax A p e delta) ≤ run_measure e := by
  rcases relax_shape A p e delta with h | ⟨hout, _, _, dv, pv, ts, heq, _, hts⟩
  · rw [h]
  rw [heq]
  rcases hts with ⟨htrial, h⟩ | ⟨hfar, h⟩
  · subst h
    have hk : assign e._states (p + delta) FastMarchingState.Trial = e._states := by
      have h2 := assign_self e._states (p + delta)
      rwa [htrial] at h2
    simp only [run_measure, far_count, margin_cells, hk]
    exact le_refl _
  · subst h
    have h1 := countP_assign_lt (margin_cells e) e._states (p + delta)
      (mem_margin_cells e _ hout) hfar
    simp only [run_measure, far_count, margin_cells, length_multiset_insert] at h1 ⊢
    omega

theorem foldl_relax_measure (A : Arith T) (p : coords_type) (ds : List coords_type)
    (e : FastMarching T) : run_measure (ds.foldl (relax A p) e) ≤ run_measure e := by
  induction ds generalizing e with
  | nil => exact le_refl _
  | cons d t ih =>
    simp only [List.foldl_cons]
    exact le_trans (ih _) (relax_measure A p e d)

theorem run_step_measure (A : Arith T) (e : FastMarching T) (h : e._trial_set ≠ []) :
    run_measure (run_step A e) + 1 ≤ run_measure e := by
  unfold run_step
  cases hts : e._trial_set with
  | nil => exact absurd hts h
  | cons top rest =>
    simp only
    have h1 : run_measure { e with _trial_set := rest } + 1 = run_measure e := by
      simp only [run_measure, far_count, margin_cells, hts, List.length_cons]
      omega
    split_ifs
    · exact le_of_eq h1
    · have := foldl_relax_measure A top.coords _deltas { e with _trial_set := rest }
      omega

theorem run_loop_trial_set_empty (A : Arith T) (fuel : ℕ) (e : FastMarching T)
    (h : run_measure e ≤ fuel) : (run_loop A fuel e)._trial_set = [] := by
  induction fuel generalizing e with
  | zero =>
    simp only [run_loop]
    have : e._trial_set.length = 0 := by
      simp only [run_measure] at h
      omega
    exact List.length_eq_zero.mp this
  | succ n ih =>
    unfold run_loop
    split
    · assumption
    · rename_i a b hts
      apply ih
      have := run_step_measure A e (by simp [hts])
      omega

/-- The loop of `run` ends: `run` returns, and with an empty trial set. -/
theorem run_trial_set_empty (A : Arith T) (e : FastMarching T) :
    (run A e)._trial_set = [] :=
  run_loop_trial_set_empty A _ e (le_refl _)

/-- More iterations than `run` performs change nothing. -/
theorem run_loop_of_empty (A : Arith T) (fuel : ℕ) (e : FastMarching T)
    (h : e._trial_set = []) : run_loop A fuel e = e := by
  cases fuel with
  | zero => rfl
  | succ n =>
    unfold run_loop
    simp [h]

/-! ## `run` never writes `Alive` -/

theorem relax_alive_iff (A : Arith T) (p : coords_type) (e : FastMarching T)
    (delta c : coords_type) :
    (relax A p e delta)._states c = FastMarchingState.Alive ↔
      e._states c = FastMarchingState.Alive := by
  rcases relax_shape A p e delta with h | ⟨_, halive, _, dv, pv, ts, heq, _, _⟩
  · rw [h]
  · rw [heq]
    by_cases hc : c = p + delta
    · subst hc
      simp [assign_same, halive]
    · simp [assign_ne _ _ _ _ hc]

theorem foldl_relax_alive_iff (A : Arith T) (p : coords_type) (ds : List coords_type)
    (e : FastMarching T) (c : coords_type) :
    (ds.foldl (relax A p) e)._states c = FastMarchingState.Alive ↔
      e._states c = FastMarchingState.Alive := by
  induction ds generalizing e with
  | nil => rfl
  | cons d t ih =>
    simp only [List.foldl_cons]
    rw [ih, relax_alive_iff]

theorem run_step_alive_iff (A : Arith T) (e : FastMarching T) (c : coords_type) :
    (run_step A e)._states c = FastMarchingState.Alive ↔
      e._states c = FastMarchingState.Alive := by
  unfold run_step
  cases e._trial_set with
  | nil => rfl
  | cons top rest =>
    simp only
    split_ifs
    · rfl
    · rw [foldl_relax_alive_iff]

theorem run_loop_alive_iff (A : Arith T) (fuel : ℕ) (e : FastMarching T) (c : coords_type) :
    (run_loop A fuel e)._states c = FastMarchingState.Alive ↔
      e._states c = FastMarchingState.Alive := by
  induction fuel generalizing e with
  | zero => rfl
  | succ n ih =>
    unfold run_loop
    split
    · rfl
    · rw [ih, run_step_alive_iff]

/-- The cells that are `Alive` after `run` are those that were `Alive` before
it: `run` freezes nothing. -/
theorem run_alive_iff (A : Arith T) (e : FastMarching T) (c : coords_type) :
    (run A e)._states c = FastMarchingState.Alive ↔ e._states c = FastMarchingState.Alive :=
  run_loop_alive_iff A _ e c

/-! ## Claims on the engine -/

/-- Claim C1, evaluated on the 3x3 grid of cost 1 with the single seed `(0, 0)`:
`initialize_alive_points` makes the centre cell `(1, 1)` (inside the margin,
adjacent to the seed) `Trial`; the first iteration of `run` extracts it and
leaves it `Trial`, and when `run` has completed (empty trial set) it is still
`Trial`, not `Alive`: `run` never writes `Alive`. -/
theorem run_never_freezes :
    (initialize_alive_points grid3 [(0, 0)])._trial_set = [⟨(1, 1), 1⟩] ∧
    (initialize_alive_points grid3 [(0, 0)])._states (1, 1) = FastMarchingState.Trial ∧
    (run_step ratArith (initialize_alive_points grid3 [(0, 0)]))._states (1, 1) =
      FastMarchingState.Trial ∧
    (run ratArith (initialize_alive_points grid3 [(0, 0)]))._trial_set = [] ∧
    (run ratArith (initialize_alive_points grid3 [(0, 0)]))._states (1, 1) =
      FastMarchingState.Trial ∧
    outside_margin grid3 (1, 1) = false := by
  decide

/-- Claim C2, evaluated on the 4x3 grid with cost 1 at `(1, 1)` and 4 elsewhere,
seed `(1, 0)`: before the first iteration of `run` the trial set is
`[((1,1), 1), ((2,1), 4)]`; the iteration extracts `(1, 1)` and relaxes the
`Trial` neighbour `(2, 1)`, whose distance drops from 4 to 5/4, but its entry in
the trial set keeps the stored value 4: it is not re-keyed. -/
theorem trial_entry_not_rekeyed :
    grid43._trial_set = [⟨(1, 1), 1⟩, ⟨(2, 1), 4⟩] ∧
    grid43._states (2, 1) = FastMarchingState.Trial ∧
    grid43._distances (2, 1) = 4 ∧
    (run_step ratArith grid43)._distances (2, 1) = 5 / 4 ∧
    (run_step ratArith grid43)._trial_set = [⟨(2, 1), 4⟩] := by
  with_unfolding_all decide

/-- Claim C3, evaluated on the 3x3 grid of cost 1 with the seeds `(0, 0)` and
`(2, 2)`: after `initialize_alive_points` the `Trial` cell `(1, 1)`, a neighbour
of both seeds, has two entries in the trial set; after `run` it is still `Trial`
and has no entry. -/
theorem trial_set_multiplicity_broken :
    (initialize_alive_points grid3 [(0, 0), (2, 2)])._states (1, 1) = FastMarchingState.Trial ∧
    (initialize_alive_points grid3 [(0, 0), (2, 2)])._trial_set =
      [⟨(1, 1), 1⟩, ⟨(1, 1), 1⟩] ∧
    (run ratArith (initialize_alive_points grid3 [(0, 0), (2, 2)]))._states (1, 1) =
      FastMarchingState.Trial ∧
    (run ratArith (initialize_alive_points grid3 [(0, 0), (2, 2)]))._trial_set = [] := by
  decide

/-- Claim C4, evaluated on the 4x3 grid of uniform cost 5 after seeding `(1, 0)`:
the trial set is `[((1,1), 5), ((2,1), 5)]` and `distance(2,1) = 5`, so it holds
the entry `((2,1), distance(2,1))`; `increase_priority((2,1), 3)` finds the
equal-valued entry of `(1, 1)` first, erases nothing and inserts: the result has
three entries and still holds `((2,1), 5)`. -/
theorem increase_priority_keeps_stale_entry :
    grid43u._trial_set = [⟨(1, 1), 5⟩, ⟨(2, 1), 5⟩] ∧
    grid43u._distances (2, 1) = 5 ∧
    (increase_priority grid43u (2, 1) 3)._trial_set =
      [⟨(2, 1), 3⟩, ⟨(1, 1), 5⟩, ⟨(2, 1), 5⟩] := by
  with_unfolding_all decide

/-- Claim C5 fails: on the freshly constructed 3x3 grid the trial set is empty,
so it holds no entry for `(1, 1)`, and `increase_priority((1,1), 3)` inserts the
entry `((1,1), 3)` instead of leaving the trial set unchanged. -/
theorem increase_priority_missing_inserts :
    grid3._trial_set = [] ∧
    (increase_priority grid3 (1, 1) 3)._trial_set = [⟨(1, 1), 3⟩] ∧
    (increase_priority grid3 (1, 1) 3)._trial_set ≠ grid3._trial_set := by
  with_unfolding_all decide

/-- Claim C5, amended: when the trial set holds no entry `(p, distance(p))`,
`increase_priority(p, v)` erases nothing; it changes nothing when
`v ≥ distance(p)`, and inserts the entry `(p, v)` when `v < distance(p)`. -/
theorem increase_priority_missing (e : FastMarching T) (p : coords_type) (v : T)
    (h : ∀ x ∈ e._trial_set, ¬(x.coords = p ∧ x.value = e._distances p)) :
    increase_priority e p v =
      if v < e._distances p then
        { e with _trial_set := multiset_insert ⟨p, v⟩ e._trial_set }
      else e := by
  unfold increase_priority
  split_ifs with hlt
  · cases hf : multiset_find ⟨p, e._distances p⟩ e._trial_set with
    | none => simp only [hf]
    | some i =>
      obtain ⟨x, hx, hv⟩ := multiset_find_value _ _ _ hf
      have hmem : x ∈ e._trial_set := List.mem_iff_getElem?.mpr ⟨i, hx⟩
      have hne : ¬x.coords = p := fun hc => h x hmem ⟨hc, hv⟩
      simp only [hf, hx, hne, if_false]
  · rfl

/-- Witness of `increase_priority_missing` on the freshly constructed 3x3 grid. -/
theorem increase_priority_missing_witness :
    increase_priority grid3 (1, 1) 3 =
      if (3 : ℚ) < grid3._distances (1, 1) then
        { grid3 with _trial_set := multiset_insert ⟨(1, 1), 3⟩ grid3._trial_set }
      else grid3 :=
  increase_priority_missing grid3 (1, 1) 3 (by simp [grid3, FastMarching.new, reset])

/-- Claim C6, evaluated on the 5x3 grid with costs 1 at `(1, 1)`, 4 at `(2, 1)`
and 3 elsewhere, seed `(2, 0)`: the cells extracted by `run` are `(1, 1)`,
`(3, 1)`, `(2, 1)` and their distances, read at extraction, are `1, 3, 5/4`: the
sequence decreases. -/
theorem extraction_order_decreases :
    grid53._trial_set = [⟨(1, 1), 1⟩, ⟨(3, 1), 3⟩, ⟨(2, 1), 4⟩] ∧
    run_extraction_distances ratArith grid53 = [1, 3, 5 / 4] ∧
    ¬ (run_extraction_distances ratArith grid53).Sorted (· ≤ ·) := by
  with_unfolding_all decide

/-! ## The local solver over the reals -/

theorem sum_sq_sub (us : List T) (t : T) :
    (us.map fun a => (t - a) ^ 2).sum =
      (us.length : T) * t ^ 2 - 2 * t * us.sum + squaredNorm us := by
  induction us with
  | nil => simp [squaredNorm]
  | cons a l ih =>
    simp only [List.map_cons, List.sum_cons, List.length_cons, squaredNorm, Nat.cast_add,
      Nat.cast_one] at ih ⊢
    rw [ih]
    ring

theorem solve_eikonal_from_of_nonneg (sqrt : T → T) (us : List T) (fx : T)
    (h : 0 ≤ eikonal_delta us fx) :
    solve_eikonal_from sqrt us fx = (us.sum + sqrt (eikonal_delta us fx)) / (us.length : T) := by
  unfold solve_eikonal_from
  simp [h]

/-- The distance field with value 0 on row 1 and 10 elsewhere: at `(1, 1)` the
axis minima are `(0, 10)`. -/
theorem axis_minima_row_field :
    axis_minima units2 ((1, 1) : coords_type)
      (fun c : coords_type => if c.2 = 1 then (0 : ℝ) else 10) = [0, 10] := by
  simp [axis_minima, units2]

/-- Claim C7 fails: for `N = 2`, a distance field whose axis minima at `x` are
`(0, 10)` and cost `1/8` the reduced discriminant is `28 ≥ 0` and the returned
value `(10 + sqrt 28) / 2` is smaller than the axis minimum `10`. -/
theorem solve_eikonal_below_axis_minimum :
    (10 : ℝ) ∈ axis_minima units2 ((1, 1) : coords_type)
      (fun c : coords_type => if c.2 = 1 then (0 : ℝ) else 10) ∧
    (0 : ℝ) ≤ eikonal_delta (axis_minima units2 ((1, 1) : coords_type)
      (fun c : coords_type => if c.2 = 1 then (0 : ℝ) else 10)) (1 / 8) ∧
    solve_eikonal_equation Real.sqrt units2 ((1, 1) : coords_type) (1 / 8)
      (fun c : coords_type => if c.2 = 1 then (0 : ℝ) else 10) < 10 := by
  unfold solve_eikonal_equation
  rw [axis_minima_row_field]
  have hd : eikonal_delta [(0 : ℝ), 10] (1 / 8) = 28 := by
    simp only [eikonal_delta, squaredNorm, List.map_cons, List.map_nil, List.sum_cons,
      List.sum_nil, List.length_cons, List.length_nil]
    norm_num
  have h0 : (0 : ℝ) ≤ eikonal_delta [0, 10] (1 / 8) := by
    rw [hd]
    norm_num
  refine ⟨by simp, h0, ?_⟩
  rw [solve_eikonal_from_of_nonneg _ _ _ h0, hd]
  have hs : Real.sqrt 28 < 10 := by
    rw [Real.sqrt_lt' (by norm_num)]
    norm_num
  simp only [List.sum_cons, List.sum_nil, List.length_cons, List.length_nil]
  norm_num
  linarith

theorem solve_eikonal_from_ge_iff (us : List ℝ) (fx : ℝ)
    (hdelta : 0 ≤ eikonal_delta us fx) (ui : ℝ) (hi : ui ∈ us) :
    ui ≤ solve_eikonal_from Real.sqrt us fx ↔
      (ui ≤ us.sum / (us.length : ℝ) ∨
        (us.map fun uj => (ui - uj) ^ 2).sum ≤ (1 / fx) ^ 2) := by
  have hN : (0 : ℝ) < (us.length : ℝ) := by
    have : 0 < us.length := List.length_pos_of_mem hi
    exact_mod_cast this
  rw [solve_eikonal_from_of_nonneg _ _ _ hdelta, sum_sq_sub, le_div_iff₀ hN, le_div_iff₀ hN]
  have hsq : Real.sqrt (eikonal_delta us fx) ^ 2 = eikonal_delta us fx := Real.sq_sqrt hdelta
  have hs0 : 0 ≤ Real.sqrt (eikonal_delta us fx) := Real.sqrt_nonneg _
  have hd : eikonal_delta us fx =
      us.sum ^ 2 - (us.length : ℝ) * (squaredNorm us - (1 / fx) ^ 2) := rfl
  set N : ℝ := (us.length : ℝ) with hNdef
  set S : ℝ := us.sum with hSdef
  set Q : ℝ := squaredNorm us with hQdef
  set r : ℝ := Real.sqrt (eikonal_delta us fx) with hrdef
  constructor
  · intro h
    by_cases hle : ui * N ≤ S
    · exact Or.inl hle
    · right
      push_neg at hle
      have h1 : (ui * N - S) ^ 2 ≤ r ^ 2 := by
        apply pow_le_pow_left₀ (by linarith) (by linarith)
      rw [hsq, hd] at h1
      have h2 : N * (N * ui ^ 2 - 2 * ui * S + Q - (1 / fx) ^ 2) ≤ 0 := by
        nlinarith
      have h3 : N * ui ^ 2 - 2 * ui * S + Q - (1 / fx) ^ 2 ≤ 0 := by
        by_contra hc
        push_neg at hc
        have := mul_pos hN hc
        linarith
      linarith
  · rintro (h | h)
    · linarith
    · have h1 : (ui * N - S) ^ 2 ≤ eikonal_delta us fx := by
        rw [hd]
        have : N * (N * ui ^ 2 - 2 * ui * S + Q - (1 / fx) ^ 2) ≤ 0 :=
          mul_nonpos_of_nonneg_of_nonpos (le_of_lt hN) (by linarith)
        nlinarith
      have h2 : |ui * N - S| ≤ r := Real.abs_le_sqrt h1
      have h3 := le_abs_self (ui * N - S)
      linarith

/-- Claim C7, amended: when the reduced discriminant is `≥ 0`, the value `r`
returned by `solve_eikonal_equation` satisfies `r ≥ u_i` exactly for the axis
minima `u_i` that are at most the mean `usum / N` or satisfy
`Σ_j (u_i - u_j)^2 ≤ s^2` with `s = 1/f` (exact real arithmetic; holds for every
cost `f`, in particular every non-zero one). -/
theorem solve_eikonal_ge_axis_minimum_iff {C : Type} [Add C] [Sub C] (units : List C) (x : C)
    (fx : ℝ) (u : C → ℝ) (hdelta : 0 ≤ eikonal_delta (axis_minima units x u) fx)
    (ui : ℝ) (hi : ui ∈ axis_minima units x u) :
    ui ≤ solve_eikonal_equation Real.sqrt units x fx u ↔
      (ui ≤ (axis_minima units x u).sum / (units.length : ℝ) ∨
        ((axis_minima units x u).map fun uj => (ui - uj) ^ 2).sum ≤ (1 / fx) ^ 2) := by
  have hlen : (axis_minima units x u).length = units.length := by
    simp [axis_minima]
  rw [← hlen]
  exact solve_eikonal_from_ge_iff _ fx hdelta ui hi

/-- Witness of `solve_eikonal_ge_axis_minimum_iff`: the 2-D cell `(1, 1)` of the
zero distance field, cost 1. -/
theorem solve_eikonal_ge_axis_minimum_iff_witness :
    (0 : ℝ) ≤ solve_eikonal_equation Real.sqrt units2 ((1, 1) : coords_type) 1 (fun _ => 0) ↔
      ((0 : ℝ) ≤ (axis_minima units2 ((1, 1) : coords_type) (fun _ => (0 : ℝ))).sum /
          (units2.length : ℝ) ∨
        ((axis_minima units2 ((1, 1) : coords_type) (fun _ => (0 : ℝ))).map
          fun uj => ((0 : ℝ) - uj) ^ 2).sum ≤ (1 / (1 : ℝ)) ^ 2) :=
  solve_eikonal_ge_axis_minimum_iff units2 (1, 1) 1 (fun _ => 0)
    (by simp [eikonal_delta, squaredNorm, axis_minima, units2])
    0 (by simp [axis_minima, units2])

/-- Claim C8: for `N ≥ 1` axes, every cost `fx` (in particular every non-zero
one) and reduced discriminant `≥ 0`, the value `r` returned by
`solve_eikonal_equation` on the axis minima `u_i = min(u(x - e_i), u(x + e_i))`
is a root of `N r^2 - 2 usum r + (Σ u_i^2 - s^2)`, `s = 1/fx`, and is the larger
root: `r ≥ usum / N` (exact real arithmetic). -/
theorem solve_eikonal_equation_root {C : Type} [Add C] [Sub C] (units : List C) (x : C)
    (fx : ℝ) (u : C → ℝ) (hN : 1 ≤ units.length)
    (hdelta : 0 ≤ eikonal_delta (axis_minima units x u) fx) :
    (units.length : ℝ) * solve_eikonal_equation Real.sqrt units x fx u ^ 2
        - 2 * (axis_minima units x u).sum * solve_eikonal_equation Real.sqrt units x fx u
        + (squaredNorm (axis_minima units x u) - (1 / fx) ^ 2) = 0 ∧
      (axis_minima units x u).sum / (units.length : ℝ) ≤
        solve_eikonal_equation Real.sqrt units x fx u := by
  have hlen : (axis_minima units x u).length = units.length := by
    simp [axis_minima]
  have hNpos : (0 : ℝ) < (units.length : ℝ) := by
    exact_mod_cast hN
  unfold solve_eikonal_equation
  rw [solve_eikonal_from_of_nonneg _ _ _ hdelta, hlen]
  have hsq : Real.sqrt (eikonal_delta (axis_minima units x u) fx) ^ 2 =
      eikonal_delta (axis_minima units x u) fx := Real.sq_sqrt hdelta
  have hs0 : 0 ≤ Real.sqrt (eikonal_delta (axis_minima units x u) fx) := Real.sqrt_nonneg _
  have hd : eikonal_delta (axis_minima units x u) fx =
      (axis_minima units x u).sum ^ 2 -
        (units.length : ℝ) * (squaredNorm (axis_minima units x u) - (1 / fx) ^ 2) := by
    simp only [eikonal_delta, hlen]
  set N : ℝ := (units.length : ℝ) with hNdef
  set S : ℝ := (axis_minima units x u).sum with hSdef
  set Q : ℝ := squaredNorm (axis_minima units x u) with hQdef
  set r : ℝ := Real.sqrt (eikonal_delta (axis_minima units x u) fx) with hrdef
  constructor
  · have hne : N ≠ 0 := ne_of_gt hNpos
    rw [hd] at hsq
    have hr : r = (S + r) / N * N - S := by
      rw [div_mul_cancel₀ _ hne]
      ring
    generalize (S + r) / N = t at hr ⊢
    rw [hr] at hsq
    have hzero : N * (N * t ^ 2 - 2 * S * t + (Q - (1 / fx) ^ 2)) = 0 := by
      linear_combination hsq
    exact (mul_eq_zero.mp hzero).resolve_left hne
  · apply div_le_div_of_nonneg_right _ (le_of_lt hNpos)
    linarith

/-- Witness of `solve_eikonal_equation_root`: the 2-D cell `(1, 1)` of the zero
distance field, cost 1. -/
theorem solve_eikonal_equation_root_witness :
    ((units2.length : ℝ) * solve_eikonal_equation Real.sqrt units2 (1, 1) 1 (fun _ => 0) ^ 2
        - 2 * (axis_minima units2 (1, 1) (fun _ => (0 : ℝ))).sum *
          solve_eikonal_equation Real.sqrt units2 (1, 1) 1 (fun _ => 0)
        + (squaredNorm (axis_minima units2 (1, 1) (fun _ => (0 : ℝ))) - (1 / (1 : ℝ)) ^ 2) = 0) ∧
      (axis_minima units2 (1, 1) (fun _ => (0 : ℝ))).sum / (units2.length : ℝ) ≤
        solve_eikonal_equation Real.sqrt units2 (1, 1) 1 (fun _ => 0) :=
  solve_eikonal_equation_root units2 (1, 1) 1 (fun _ => 0) (by simp [units2])
    (by simp [eikonal_delta, squaredNorm, axis_minima, units2])

/-- Claim C9: for `N = 2`, a distance field whose axis minima at `x` are
`(u0, u1)` and every cost `fx` (in particular every non-zero one), when the
reduced discriminant `(u0+u1)^2 - 2 (u0^2 + u1^2 - (1/fx)^2)` is negative,
`solve_eikonal_equation` returns `min(u0, u1) + 1/fx`, whatever `std::sqrt`
does. -/
theorem solve_eikonal_degenerate (sqrt : T → T) (x : coords_type) (fx : T)
    (u : coords_type → T) (u0 u1 : T) (hu : axis_minima units2 x u = [u0, u1])
    (hdelta : (u0 + u1) ^ 2 - 2 * (u0 ^ 2 + u1 ^ 2 - (1 / fx) ^ 2) < 0) :
    solve_eikonal_equation sqrt units2 x fx u = min u0 u1 + 1 / fx := by
  have hd : eikonal_delta [u0, u1] fx =
      (u0 + u1) ^ 2 - 2 * (u0 ^ 2 + u1 ^ 2 - (1 / fx) ^ 2) := by
    simp only [eikonal_delta, squaredNorm, List.map_cons, List.map_nil, List.sum_cons,
      List.sum_nil, List.length_cons, List.length_nil]
    norm_num
  have hneg : ¬ eikonal_delta [u0, u1] fx ≥ 0 := by
    rw [hd]
    exact not_le.mpr hdelta
  unfold solve_eikonal_equation solve_eikonal_from
  rw [hu]
  simp only [hneg, if_false, List.length_cons, List.length_nil]
  simp [minCoeff]

/-- Witness of `solve_eikonal_degenerate`, the scenario of the specification:
axis minima `u = (2, 5)` (here at `(1, 1)`, from the distance field with 2 at
`(0, 1)`, 5 at `(1, 0)` and 9 elsewhere) and `f = 1` have discriminant `-7`, and
the result is `3`. -/
theorem solve_eikonal_degenerate_witness :
    ((2 : ℚ) + 5) ^ 2 - 2 * (2 ^ 2 + 5 ^ 2 - (1 / 1) ^ 2) = -7 ∧
    solve_eikonal_equation ratSqrt units2 (1, 1) 1
      (fun c : coords_type => if c = (0, 1) then (2 : ℚ) else if c = (1, 0) then 5 else 9) =
        min (2 : ℚ) 5 + 1 / 1 ∧
    min (2 : ℚ) 5 + 1 / 1 = 3 :=
  ⟨by norm_num,
    solve_eikonal_degenerate ratSqrt (1, 1) 1
      (fun c : coords_type => if c = (0, 1) then (2 : ℚ) else if c = (1, 0) then 5 else 9) 2 5
      (by with_unfolding_all decide) (by norm_num),
    by norm_num⟩

/-! ## The forbidden row -/

theorem row_guard_forbid_row (k : ℤ) (e : FastMarching T) : row_guard k (forbid_row k e) := by
  intro c hc hout
  simp only [outside_margin, _margin, forbid_row, Bool.or_eq_false_iff, decide_eq_false_iff_not,
    not_lt, ge_iff_le, not_le] at hout
  obtain ⟨⟨⟨h1, h2⟩, _⟩, _⟩ := hout
  have hx : 0 ≤ c.1 ∧ c.1 < e.width := by
    constructor <;> omega
  simp [forbid_row, hc, hx]

/-- Claim C10: on a freshly constructed (reset, empty trial set) engine over any
cost grid, in particular one with non-zero costs, with every cell of row `k`
marked `Forbidden` and seeds all below row `k` (`y < k`), after
`initialize_alive_points(seeds)` and `run()` (which returns, with an empty trial
set) every cell with `y > k` is still `Far` with distance `max()` and
predecessor `-1`, and every cell of row `k` is still `Forbidden` with its
distance unchanged (`max()`). -/
theorem forbidden_row_blocks (A : Arith T) (width height : ℤ) (cost : coords_type → T)
    (limit : T) (k : ℤ) (seeds : List coords_type) (hseeds : ∀ s ∈ seeds, s.2 < k) :
    (forbidden_row_run A width height cost limit k seeds)._trial_set = [] ∧
    (∀ c : coords_type, k < c.2 →
      (forbidden_row_run A width height cost limit k seeds)._states c =
        FastMarchingState.Far ∧
      (forbidden_row_run A width height cost limit k seeds)._distances c = A.maxValue ∧
      (forbidden_row_run A width height cost limit k seeds)._predecessors c = -1) ∧
    (∀ c : coords_type, c.2 = k → 0 ≤ c.1 → c.1 < width →
      (forbidden_row_run A width height cost limit k seeds)._states c =
        FastMarchingState.Forbidden ∧
      (forbidden_row_run A width height cost limit k seeds)._distances c = A.maxValue) := by
  have h0 : row_guard k (forbid_row k (FastMarching.new A width height cost limit)) :=
    row_guard_forbid_row k _
  have hinit := initialize_alive_points_blocked k _ h0 seeds hseeds _
    (same_from_refl k _) (by intro x hx; simp [forbid_row, FastMarching.new, reset] at hx)
  have hrun := run_loop_blocked A k _ h0
    ((initialize_alive_points
      (forbid_row k (FastMarching.new A width height cost limit)) seeds)._trial_set.length +
      far_count (initialize_alive_points
        (forbid_row k (FastMarching.new A width height cost limit)) seeds))
    _ hinit.1 hinit.2
  have hsame := hrun.1
  unfold forbidden_row_run
  refine ⟨run_trial_set_empty A _, ?_, ?_⟩
  · intro c hc
    obtain ⟨h1, h2, h3⟩ := hsame.2.2 c (le_of_lt hc)
    have hne : ¬ c.2 = k := by omega
    unfold run
    rw [h1, h2, h3]
    simp [forbid_row, FastMarching.new, reset, hne]
  · intro c hc hx0 hx1
    obtain ⟨h1, h2, _⟩ := hsame.2.2 c (le_of_eq hc.symm)
    unfold run
    rw [h1, h2]
    simp [forbid_row, FastMarching.new, reset, hc, hx0, hx1]

/-- Witness of `forbidden_row_blocks`: the 4x5 grid of uniform cost 1, row 2
forbidden, seed `(1, 0)`. -/
theorem forbidden_row_blocks_witness :
    (∀ s ∈ [((1, 0) : coords_type)], s.2 < 2) ∧
    (forbidden_row_run ratArith 4 5 (fun _ => 1) 0 2 [(1, 0)])._trial_set = [] ∧
    (∀ c : coords_type, 2 < c.2 →
      (forbidden_row_run ratArith 4 5 (fun _ => 1) 0 2 [(1, 0)])._states c =
        FastMarchingState.Far ∧
      (forbidden_row_run ratArith 4 5 (fun _ => 1) 0 2 [(1, 0)])._distances c =
        ratArith.maxValue ∧
      (forbidden_row_run ratArith 4 5 (fun _ => 1) 0 2 [(1, 0)])._predecessors c = -1) ∧
    (∀ c : coords_type, c.2 = 2 → 0 ≤ c.1 → c.1 < 4 →
      (forbidden_row_run ratArith 4 5 (fun _ => 1) 0 2 [(1, 0)])._states c =
        FastMarchingState.Forbidden ∧
      (forbidden_row_run ratArith 4 5 (fun _ => 1) 0 2 [(1, 0)])._distances c =
        ratArith.maxValue) :=
  ⟨by decide, forbidden_row_blocks ratArith 4 5 (fun _ => 1) 0 2 [(1, 0)] (by decide)⟩

/-! ## Loop skeletons -/

/-- A property kept by every step of a loop is kept by the loop. -/
theorem foldl_keeps {α β : Type} (P : α → Prop) (f : α → β → α) (l : List β)
    (h : ∀ a b, b ∈ l → P a → P (f a b)) (a : α) (ha : P a) : P (l.foldl f a) := by
  induction l generalizing a with
  | nil => exact ha
  | cons b t ih =>
    simp only [List.foldl_cons]
    exact ih (fun a c hc => h a c (List.mem_cons_of_mem _ hc)) _
      (h a b (List.mem_cons_self _ _) ha)

/-- A property kept by the extraction and by every neighbour visit is kept by an
iteration of `run`. -/
theorem run_step_keeps (A : Arith T) (P : FastMarching T → Prop)
    (hpop : ∀ (e : FastMarching T) (top : CoordsValue T) (rest : List (CoordsValue T)),
      e._trial_set = top :: rest → P e → P { e with _trial_set := rest })
    (hrelax : ∀ (e : FastMarching T) (p d : coords_type), d ∈ _deltas → P e → P (relax A p e d))
    (e : FastMarching T) (he : P e) : P (run_step A e) := by
  unfold run_step
  cases hts : e._trial_set with
  | nil => exact he
  | cons top rest =>
    simp only
    have h1 := hpop e top rest hts he
    split_ifs
    · exact h1
    · exact foldl_keeps P _ _deltas (fun a d hd ha => hrelax a top.coords d hd ha) _ h1

theorem run_loop_keeps (A : Arith T) (P : FastMarching T → Prop)
    (hstep : ∀ e : FastMarching T, P e → P (run_step A e))
    (fuel : ℕ) (e : FastMarching T) (he : P e) : P (run_loop A fuel e) := by
  induction fuel generalizing e with
  | zero => exact he
  | succ n ih =>
    unfold run_loop
    split
    · exact he
    · exact ih _ (hstep e he)

/-- A property kept by the marking of a seed and by every neighbour visit is
kept by `initialize_alive_points`. -/
theorem initialize_alive_points_keeps (P : FastMarching T → Prop)
    (hmark : ∀ (e : FastMarching T) (p : coords_type),
      P e → P { e with _states := assign e._states p FastMarchingState.Alive })
    (hvisit : ∀ (e : FastMarching T) (p d : coords_type), d ∈ _deltas → P e →
      P (init_visit p e d))
    (e : FastMarching T) (points : List coords_type) (he : P e) :
    P (initialize_alive_points e points) := by
  unfold initialize_alive_points mark_alive
  apply foldl_keeps P _ points
  · intro a p _ ha
    exact foldl_keeps P _ _deltas (fun a d hd ha => hvisit a p d hd ha) a ha
  · exact foldl_keeps P _ points (fun a p _ ha => hmark a p ha) e he

/-! ## Frame of the operations -/

theorem same_grid_refl (e : FastMarching T) : same_grid e e :=
  ⟨rfl, rfl, rfl, rfl⟩

theorem relax_same_grid (A : Arith T) (e0 e : FastMarching T) (p d : coords_type)
    (h : same_grid e0 e) : same_grid e0 (relax A p e d) := by
  rcases relax_shape A p e d with h1 | ⟨_, _, _, dv, pv, ts, heq, _, _⟩
  · rw [h1]
    exact h
  · rw [heq]
    exact h

theorem init_visit_same_grid (e0 e : FastMarching T) (p d : coords_type)
    (h : same_grid e0 e) : same_grid e0 (init_visit p e d) := by
  rcases init_visit_shape p e d with h1 | ⟨_, _, _, heq⟩
  · rw [h1]
    exact h
  · rw [heq]
    exact h

theorem run_step_same_grid (A : Arith T) (e0 e : FastMarching T) (h : same_grid e0 e) :
    same_grid e0 (run_step A e) :=
  run_step_keeps A (same_grid e0) (fun _ _ _ _ h => h)
    (fun e p d _ h => relax_same_grid A e0 e p d h) e h

theorem run_loop_same_grid (A : Arith T) (e0 : FastMarching T) (fuel : ℕ) (e : FastMarching T)
    (h : same_grid e0 e) : same_grid e0 (run_loop A fuel e) :=
  run_loop_keeps A (same_grid e0) (fun e h => run_step_same_grid A e0 e h) fuel e h

theorem run_same_grid (A : Arith T) (e : FastMarching T) : same_grid e (run A e) :=
  run_loop_same_grid A e _ e (same_grid_refl e)

theorem initialize_alive_points_same_grid (e : FastMarching T) (points : List coords_type) :
    same_grid e (initialize_alive_points e points) :=
  initialize_alive_points_keeps (same_grid e) (fun _ _ h => h)
    (fun a p d _ h => init_visit_same_grid e a p d h) e points (same_grid_refl e)

/-! ## Finalized cells and the direction of distance updates -/

theorem relax_kept_alive (A : Arith T) (e0 e : FastMarching T) (c p d : coords_type)
    (h : kept_alive e0 c e) : kept_alive e0 c (relax A p e d) := by
  rcases relax_shape A p e d with h1 | ⟨_, halive, _, dv, pv, ts, heq, _, _⟩
  · rw [h1]
    exact h
  · have hne : c ≠ p + d := by
      intro hc
      rw [hc] at h
      exact halive h.1
    rw [heq]
    unfold kept_alive
    simp only [assign_ne _ _ _ _ hne]
    exact h

theorem init_visit_kept_alive (e0 e : FastMarching T) (c p d : coords_type)
    (h : kept_alive e0 c e) : kept_alive e0 c (init_visit p e d) := by
  rcases init_visit_shape p e d with h1 | ⟨_, halive, _, heq⟩
  · rw [h1]
    exact h
  · have hne : c ≠ p + d := by
      intro hc
      rw [hc] at h
      exact halive h.1
    rw [heq]
    unfold kept_alive
    simp only [assign_ne _ _ _ _ hne]
    exact h

theorem mark_kept_alive (e0 e : FastMarching T) (c p : coords_type) (h : kept_alive e0 c e) :
    kept_alive e0 c { e with _states := assign e._states p FastMarchingState.Alive } := by
  refine ⟨?_, h.2.1, h.2.2⟩
  by_cases hc : c = p
  · simp [assign, hc]
  · simp only [assign_ne _ _ _ _ hc]
    exact h.1

/-- Claim C12: a cell `c` that is `Alive` keeps its state, its distance and its
predecessor through `initialize_alive_points` (any seed list), through every
iteration of `run` and through `run`. -/
theorem alive_cell_is_final (A : Arith T) (e : FastMarching T) (c : coords_type)
    (hc : e._states c = FastMarchingState.Alive) (seeds : List coords_type) :
    ((initialize_alive_points e seeds)._states c = FastMarchingState.Alive ∧
      (initialize_alive_points e seeds)._distances c = e._distances c ∧
      (initialize_alive_points e seeds)._predecessors c = e._predecessors c) ∧
    ((run_step A e)._states c = FastMarchingState.Alive ∧
      (run_step A e)._distances c = e._distances c ∧
      (run_step A e)._predecessors c = e._predecessors c) ∧
    ((run A e)._states c = FastMarchingState.Alive ∧
      (run A e)._distances c = e._distances c ∧
      (run A e)._predecessors c = e._predecessors c) := by
  have h0 : kept_alive e c e := ⟨hc, rfl, rfl⟩
  have hstep : ∀ a : FastMarching T, kept_alive e c a → kept_alive e c (run_step A a) :=
    fun a ha => run_step_keeps A (kept_alive e c) (fun _ _ _ _ h => h)
      (fun a p d _ h => relax_kept_alive A e a c p d h) a ha
  refine ⟨?_, hstep e h0, ?_⟩
  · exact initialize_alive_points_keeps (kept_alive e c)
      (fun a p h => mark_kept_alive e a c p h)
      (fun a p d _ h => init_visit_kept_alive e a c p d h) e seeds h0
  · exact run_loop_keeps A (kept_alive e c) hstep _ e h0

/-- Witness of `alive_cell_is_final`: the seed `(0, 0)` of the 3x3 grid, marked
`Alive` by a first `initialize_alive_points`. -/
theorem alive_cell_is_final_witness :
    ((initialize_alive_points (initialize_alive_points grid3 [(0, 0)]) [(2, 2)])._states (0, 0) =
        FastMarchingState.Alive ∧
      (initialize_alive_points (initialize_alive_points grid3 [(0, 0)]) [(2, 2)])._distances
        (0, 0) = (initialize_alive_points grid3 [(0, 0)])._distances (0, 0) ∧
      (initialize_alive_points (initialize_alive_points grid3 [(0, 0)]) [(2, 2)])._predecessors
        (0, 0) = (initialize_alive_points grid3 [(0, 0)])._predecessors (0, 0)) ∧
    ((run_step ratArith (initialize_alive_points grid3 [(0, 0)]))._states (0, 0) =
        FastMarchingState.Alive ∧
      (run_step ratArith (initialize_alive_points grid3 [(0, 0)]))._distances (0, 0) =
        (initialize_alive_points grid3 [(0, 0)])._distances (0, 0) ∧
      (run_step ratArith (initialize_alive_points grid3 [(0, 0)]))._predecessors (0, 0) =
        (initialize_alive_points grid3 [(0, 0)])._predecessors (0, 0)) ∧
    ((run ratArith (initialize_alive_points grid3 [(0, 0)]))._states (0, 0) =
        FastMarchingState.Alive ∧
      (run ratArith (initialize_alive_points grid3 [(0, 0)]))._distances (0, 0) =
        (initialize_alive_points grid3 [(0, 0)])._distances (0, 0) ∧
      (run ratArith (initialize_alive_points grid3 [(0, 0)]))._predecessors (0, 0) =
        (initialize_alive_points grid3 [(0, 0)])._predecessors (0, 0)) :=
  alive_cell_is_final ratArith (initialize_alive_points grid3 [(0, 0)]) (0, 0) (by decide)
    [(2, 2)]

/-- Claim C13: after `initialize_alive_points(seeds); run()` on a freshly
constructed engine, `reset()` gives back the freshly constructed engine (the
trial set is empty after `run`), so a second `initialize_alive_points(seeds);
run()` ends in the same engine state: same states, distances and predecessors. -/
theorem reset_then_rerun (A : Arith T) (width height : ℤ) (cost : coords_type → T) (limit : T)
    (seeds : List coords_type) :
    reset A (run A (initialize_alive_points (FastMarching.new A width height cost limit) seeds)) =
      FastMarching.new A width height cost limit ∧
    run A (initialize_alive_points
        (reset A (run A (initialize_alive_points
          (FastMarching.new A width height cost limit) seeds))) seeds) =
      run A (initialize_alive_points (FastMarching.new A width height cost limit) seeds) := by
  have hreset : reset A (run A (initialize_alive_points
      (FastMarching.new A width height cost limit) seeds)) =
      FastMarching.new A width height cost limit := by
    have h1 := initialize_alive_points_same_grid (FastMarching.new A width height cost limit) seeds
    have h2 := run_same_grid A
      (initialize_alive_points (FastMarching.new A width height cost limit) seeds)
    have h3 := run_trial_set_empty A
      (initialize_alive_points (FastMarching.new A width height cost limit) seeds)
    obtain ⟨a1, a2, a3, a4⟩ := h1
    obtain ⟨b1, b2, b3, b4⟩ := h2
    ext1
    · simp only [reset, b1, a1]
    · simp only [reset, b2, a2]
    · simp only [reset, b3, a3]
    · simp only [reset, FastMarching.new]
    · simp only [reset, FastMarching.new]
    · simp only [reset, FastMarching.new]
    · exact h3
    · simp only [reset, b4, a4]
  exact ⟨hreset, by rw [hreset]⟩

/-- Claim C16: `run` terminates. Whatever the number `fuel` of iterations
allowed, the loop body is executed at most `|trial set| + (number of in-margin
Far cells)` times, and after that many iterations (or more) the trial set is
empty; a neighbour visit changes the trial set only by inserting the visited
cell, and only when that cell goes from `Far` to `Trial`. -/
theorem run_terminates (A : Arith T) (e : FastMarching T) (fuel extra : ℕ)
    (p delta : coords_type) :
    run_iterations A fuel e ≤ e._trial_set.length + far_count e ∧
    (run_loop A (e._trial_set.length + far_count e + extra) e)._trial_set = [] ∧
    ((relax A p e delta)._trial_set = e._trial_set ∨
      (e._states (p + delta) = FastMarchingState.Far ∧
        (relax A p e delta)._states (p + delta) = FastMarchingState.Trial ∧
        ∃ v : T, (relax A p e delta)._trial_set =
          multiset_insert ⟨p + delta, v⟩ e._trial_set)) := by
  refine ⟨?_, run_loop_trial_set_empty A _ e (Nat.le_add_right _ _), ?_⟩
  · have key : ∀ (n : ℕ) (a : FastMarching T), run_iterations A n a ≤ run_measure a := by
      intro n
      induction n with
      | zero => intro a; simp [run_iterations]
      | succ n ih =>
        intro a
        unfold run_iterations
        split
        · exact Nat.zero_le _
        · rename_i x y hts
          have h1 := run_step_measure A a (by simp [hts])
          have h2 := ih (run_step A a)
          omega
    exact key fuel e
  · rcases relax_shape A p e delta with h | ⟨_, _, _, dv, pv, ts, heq, _, hts⟩
    · left
      rw [h]
    · rcases hts with ⟨_, h⟩ | ⟨hfar, h⟩
      · left
        rw [heq, h]
      · right
        refine ⟨hfar, ?_, dv, ?_⟩
        · rw [heq]
          simp [assign_same]
        · rw [heq, h]

theorem relax_distance_le (A : Arith T) (e : FastMarching T) (p d c : coords_type) :
    (relax A p e d)._distances c ≤ e._distances c := by
  rcases relax_shape A p e d with h1 | ⟨_, _, _, dv, pv, ts, heq, hle, _⟩
  · rw [h1]
  · rw [heq]
    by_cases hc : c = p + d
    · subst hc
      simp only [assign_same]
      exact hle
    · simp only [assign_ne _ _ _ _ hc]
      exact le_refl _

theorem run_step_distance_le (A : Arith T) (e : FastMarching T) (c : coords_type) :
    (run_step A e)._distances c ≤ e._distances c :=
  run_step_keeps A (fun a => a._distances c ≤ e._distances c) (fun _ _ _ _ h => h)
    (fun a p d _ h => le_trans (relax_distance_le A a p d c) h) e (le_refl _)

theorem run_loop_distance_le (A : Arith T) (fuel : ℕ) (e : FastMarching T) (c : coords_type) :
    (run_loop A fuel e)._distances c ≤ e._distances c :=
  run_loop_keeps A (fun a => a._distances c ≤ e._distances c)
    (fun a h => le_trans (run_step_distance_le A a c) h) fuel e (le_refl _)

theorem init_visit_kept_or_cost (e0 e : FastMarching T) (c p d : coords_type)
    (h : kept_or_cost e0 c e) : kept_or_cost e0 c (init_visit p e d) := by
  rcases init_visit_shape p e d with h1 | ⟨_, _, _, heq⟩
  · rw [h1]
    exact h
  · rw [heq]
    refine ⟨h.1, ?_⟩
    by_cases hc : c = p + d
    · subst hc
      right
      simp only [assign_same, h.1]
    · simp only [assign_ne _ _ _ _ hc]
      exact h.2

/-- Claim C17 fails for `initialize_alive_points`: on the 4x3 grid with cost 1 at
`(1, 1)` and 4 elsewhere, after `initialize_alive_points({(1,0)})` and `run()`
the cell `(2, 1)` is `Trial` with distance `5/4`; a further
`initialize_alive_points({(1,0)})` overwrites its distance with its cost `4`. -/
theorem initialize_raises_distance :
    (run ratArith grid43)._states (2, 1) = FastMarchingState.Trial ∧
    (run ratArith grid43)._distances (2, 1) = 5 / 4 ∧
    (initialize_alive_points (run ratArith grid43) [(1, 0)])._distances (2, 1) = 4 ∧
    (run ratArith grid43)._distances (2, 1) <
      (initialize_alive_points (run ratArith grid43) [(1, 0)])._distances (2, 1) := by
  with_unfolding_all decide

/-- Claim C17, amended: no iteration of `run` (and so not `run`) replaces the
distance of a cell by a larger value; `initialize_alive_points` leaves the
distance of a cell unchanged or overwrites it with the cost of the cell, so it
does not raise the distance of a cell whose cost is at most its distance (as on
a freshly reset engine with costs at most `max()`). -/
theorem distance_updates (A : Arith T) (e : FastMarching T) (seeds : List coords_type)
    (c : coords_type) :
    (run_step A e)._distances c ≤ e._distances c ∧
    (run A e)._distances c ≤ e._distances c ∧
    ((initialize_alive_points e seeds)._distances c = e._distances c ∨
      (initialize_alive_points e seeds)._distances c = e._displacements c) ∧
    (e._displacements c ≤ e._distances c →
      (initialize_alive_points e seeds)._distances c ≤ e._distances c) := by
  have h := initialize_alive_points_keeps (kept_or_cost e c)
    (fun a p h => h) (fun a p d _ h => init_visit_kept_or_cost e a c p d h) e seeds
    ⟨rfl, Or.inl rfl⟩
  refine ⟨run_step_distance_le A e c, run_loop_distance_le A _ e c, h.2, ?_⟩
  intro hc
  rcases h.2 with h1 | h1
  · exact le_of_eq h1
  · rw [h1]
    exact hc

/-- Witness of `distance_updates`: the freshly constructed 3x3 grid, seed
`(0, 0)`, cell `(1, 1)`. -/
theorem distance_updates_witness :
    (run_step ratArith grid3)._distances (1, 1) ≤ grid3._distances (1, 1) ∧
    (run ratArith grid3)._distances (1, 1) ≤ grid3._distances (1, 1) ∧
    ((initialize_alive_points grid3 [(0, 0)])._distances (1, 1) = grid3._distances (1, 1) ∨
      (initialize_alive_points grid3 [(0, 0)])._distances (1, 1) =
        grid3._displacements (1, 1)) ∧
    (grid3._displacements (1, 1) ≤ grid3._distances (1, 1) →
      (initialize_alive_points grid3 [(0, 0)])._distances (1, 1) ≤ grid3._distances (1, 1)) :=
  distance_updates ratArith grid3 [(0, 0)] (1, 1)

/-! ## The neighbours of the seeds after `initialize_alive_points` -/

/-- A loop that visits `x`, whose steps keep `Q` and keep `G`, and whose step at
`x` establishes `G` from `Q`, ends with `G`. -/
theorem foldl_reaches {α β : Type} (Q G : α → Prop) (f : α → β → α) (l : List β) (x : β)
    (hx : x ∈ l) (hQ : ∀ a b, b ∈ l → Q a → Q (f a b)) (hG : ∀ a b, b ∈ l → G a → G (f a b))
    (hit : ∀ a, Q a → G (f a x)) (a : α) (ha : Q a) : G (l.foldl f a) := by
  induction l generalizing a with
  | nil => simp at hx
  | cons b t ih =>
    simp only [List.foldl_cons]
    rcases List.mem_cons.mp hx with h | h
    · subst h
      exact foldl_keeps G f t (fun a c hc => hG a c (List.mem_cons_of_mem _ hc)) _ (hit a ha)
    · exact ih h (fun a c hc => hQ a c (List.mem_cons_of_mem _ hc))
        (fun a c hc => hG a c (List.mem_cons_of_mem _ hc)) _
        (hQ a b (List.mem_cons_self _ _) ha)

theorem init_visit_open_cell (n p d : coords_type) (e : FastMarching T) (h : open_cell n e) :
    open_cell n (init_visit p e d) := by
  rcases init_visit_shape p e d with h1 | ⟨_, _, _, heq⟩
  · rw [h1]
    exact h
  · rw [heq]
    obtain ⟨h1, h2, h3⟩ := h
    refine ⟨h1, ?_, ?_⟩
    · by_cases hc : n = p + d
      · simp [assign, hc]
      · simp only [assign_ne _ _ _ _ hc]
        exact h2
    · by_cases hc : n = p + d
      · simp [assign, hc]
      · simp only [assign_ne _ _ _ _ hc]
        exact h3

theorem init_visit_seeded (seeds : List coords_type) (n p d : coords_type) (e : FastMarching T)
    (hp : p ∈ seeds) (hd : d ∈ _deltas) (h : seeded seeds n e) :
    seeded seeds n (init_visit p e d) := by
  rcases init_visit_shape p e d with h1 | ⟨_, _, _, heq⟩
  · rw [h1]
    exact h
  · rw [heq]
    by_cases hc : n = p + d
    · subst hc
      refine ⟨by simp [assign_same], by simp [assign_same], ⟨p, hp, ⟨d, hd, rfl⟩, ?_⟩, ?_⟩
      · simp [assign_same, to_index]
      · simp [mem_multiset_insert]
    · obtain ⟨h1, h2, ⟨q, hq, hqd, hq2⟩, h4⟩ := h
      refine ⟨?_, ?_, ⟨q, hq, hqd, ?_⟩, ?_⟩
      · simp only [assign_ne _ _ _ _ hc]
        exact h1
      · simp only [assign_ne _ _ _ _ hc]
        exact h2
      · simp only [assign_ne _ _ _ _ hc]
        exact hq2
      · simp only [mem_multiset_insert]
        exact Or.inr h4

theorem init_visit_hits (seeds : List coords_type) (p d : coords_type) (e : FastMarching T)
    (hp : p ∈ seeds) (hd : d ∈ _deltas) (h : open_cell (p + d) e) :
    seeded seeds (p + d) (init_visit p e d) := by
  obtain ⟨h1, h2, h3⟩ := h
  rcases init_visit_shape p e d with h0 | ⟨_, _, _, heq⟩
  · exfalso
    have hst : (init_visit p e d)._states (p + d) = FastMarchingState.Trial := by
      simp [init_visit, h1, h2, h3, assign_same]
    rw [h0] at hst
    have hts : (init_visit p e d)._trial_set =
        multiset_insert ⟨p + d, e._displacements (p + d)⟩ e._trial_set := by
      simp [init_visit, h1, h2, h3, assign_same]
    rw [h0] at hts
    have hlen := congrArg List.length hts
    rw [length_multiset_insert] at hlen
    omega
  · rw [heq]
    refine ⟨by simp [assign_same], by simp [assign_same], ⟨p, hp, ⟨d, hd, rfl⟩, ?_⟩, ?_⟩
    · simp [assign_same, to_index]
    · simp [mem_multiset_insert]

theorem mark_alive_frame (e : FastMarching T) (points : List coords_type) (n : coords_type)
    (hn : n ∉ points) :
    same_grid e (mark_alive e points) ∧ (mark_alive e points)._states n = e._states n := by
  unfold mark_alive
  apply foldl_keeps (fun a : FastMarching T => same_grid e a ∧ a._states n = e._states n)
  · intro a p hp ha
    refine ⟨ha.1, ?_⟩
    have hne : n ≠ p := fun h => hn (h ▸ hp)
    simp only [assign_ne _ _ _ _ hne]
    exact ha.2
  · exact ⟨same_grid_refl e, rfl⟩

/-- After `initialize_alive_points(seeds)` a `Far` cell `p + d` inside the margin
that is a neighbour of the seed `p` and is not a seed itself is `seeded`. -/
theorem initialize_alive_points_seeded (e : FastMarching T) (seeds : List coords_type)
    (p d : coords_type) (hp : p ∈ seeds) (hd : d ∈ _deltas)
    (hmargin : outside_margin e (p + d) = false) (hseed : p + d ∉ seeds)
    (hfar : e._states (p + d) = FastMarchingState.Far) :
    seeded seeds (p + d) (initialize_alive_points e seeds) := by
  obtain ⟨hg, hst⟩ := mark_alive_frame e seeds (p + d) hseed
  have hopen : open_cell (p + d) (mark_alive e seeds) := by
    refine ⟨?_, ?_, ?_⟩
    · rw [outside_margin_congr e _ hg.1 hg.2.1]
      exact hmargin
    · rw [hst, hfar]
      decide
    · rw [hst, hfar]
      decide
  unfold initialize_alive_points
  apply foldl_reaches (open_cell (p + d)) (seeded seeds (p + d)) _ seeds p hp
  · intro a q _ ha
    exact foldl_keeps (open_cell (p + d)) _ _deltas
      (fun a x _ h => init_visit_open_cell (p + d) q x a h) a ha
  · intro a q hq ha
    exact foldl_keeps (seeded seeds (p + d)) _ _deltas
      (fun a x hx h => init_visit_seeded seeds (p + d) q x a hq hx h) a ha
  · intro a ha
    exact foldl_reaches (open_cell (p + d)) (seeded seeds (p + d)) _ _deltas d hd
      (fun a x _ h => init_visit_open_cell (p + d) p x a h)
      (fun a x hx h => init_visit_seeded seeds (p + d) p x a hp hx h)
      (fun a h => init_visit_hits seeds p d a hp hd h) a ha
  · exact hopen

/-- Claim C11: on a freshly reset engine (every cell `Far`, or `Forbidden` when
the caller marked it), after `initialize_alive_points(seeds)` every 8-neighbour
`n = p + d` of a seed `p` that lies inside the margin and is neither a seed nor
`Forbidden` is `Trial`, has `distance(n) = cost(n)`, has as predecessor the
linear index of a seed adjacent to `n`, and the trial set contains the entry
`(n, cost(n))`. -/
theorem seed_neighbours_initialized (e : FastMarching T)
    (hfresh : ∀ c, e._states c = FastMarchingState.Far ∨ e._states c = FastMarchingState.Forbidden)
    (seeds : List coords_type) (p d : coords_type) (hp : p ∈ seeds) (hd : d ∈ _deltas)
    (hmargin : outside_margin e (p + d) = false) (hseed : p + d ∉ seeds)
    (hforb : e._states (p + d) ≠ FastMarchingState.Forbidden) :
    (initialize_alive_points e seeds)._states (p + d) = FastMarchingState.Trial ∧
    (initialize_alive_points e seeds)._distances (p + d) = e._displacements (p + d) ∧
    (∃ q ∈ seeds, (∃ d1 ∈ _deltas, p + d = q + d1) ∧
      (initialize_alive_points e seeds)._predecessors (p + d) = to_index e q) ∧
    (⟨p + d, e._displacements (p + d)⟩ : CoordsValue T) ∈
      (initialize_alive_points e seeds)._trial_set := by
  have hfar : e._states (p + d) = FastMarchingState.Far := (hfresh (p + d)).resolve_right hforb
  have hseeded := initialize_alive_points_seeded e seeds p d hp hd hmargin hseed hfar
  have hgrid := initialize_alive_points_same_grid e seeds
  obtain ⟨h1, h2, ⟨q, hq, hqd, hq2⟩, h4⟩ := hseeded
  rw [hgrid.2.2.1] at h2 h4
  refine ⟨h1, h2, ⟨q, hq, hqd, ?_⟩, h4⟩
  rw [hq2]
  simp only [to_index, hgrid.1]

/-- Witness of `seed_neighbours_initialized`: the 3x3 grid, seed `(0, 0)`, offset
`(1, 1)`. -/
theorem seed_neighbours_initialized_witness :
    (initialize_alive_points grid3 [(0, 0)])._states ((0, 0) + (1, 1)) =
      FastMarchingState.Trial ∧
    (initialize_alive_points grid3 [(0, 0)])._distances ((0, 0) + (1, 1)) =
      grid3._displacements ((0, 0) + (1, 1)) ∧
    (∃ q ∈ [((0, 0) : coords_type)], (∃ d1 ∈ _deltas, ((0, 0) : coords_type) + (1, 1) = q + d1) ∧
      (initialize_alive_points grid3 [(0, 0)])._predecessors ((0, 0) + (1, 1)) =
        to_index grid3 q) ∧
    (⟨(0, 0) + (1, 1), grid3._displacements ((0, 0) + (1, 1))⟩ : CoordsValue ℚ) ∈
      (initialize_alive_points grid3 [(0, 0)])._trial_set :=
  seed_neighbours_initialized grid3 (fun _ => Or.inl rfl) [(0, 0)] (0, 0) (1, 1)
    (by decide) (by decide) (by decide) (by decide) (by decide)

/-! ## Predecessor writes -/

theorem foldl_writes_all {α β : Type} (P : α → Prop) (R : PredWrite → Prop) (f : α → β → α)
    (g : α → β → List PredWrite) (l : List β)
    (hP : ∀ a b, b ∈ l → P a → P (f a b))
    (hR : ∀ a b, b ∈ l → P a → ∀ w ∈ g a b, R w) (a : α) (ha : P a) :
    ∀ w ∈ foldl_writes f g l a, R w := by
  induction l generalizing a with
  | nil => simp [foldl_writes]
  | cons b t ih =>
    intro w hw
    simp only [foldl_writes, List.mem_append] at hw
    rcases hw with hw | hw
    · exact hR a b (List.mem_cons_self _ _) ha w hw
    · exact ih (fun a c hc => hP a c (List.mem_cons_of_mem _ hc))
        (fun a c hc => hR a c (List.mem_cons_of_mem _ hc)) _
        (hP a b (List.mem_cons_self _ _) ha) w hw

theorem mark_alive_alive (points : List coords_type) (e : FastMarching T) (q : coords_type)
    (h : q ∈ points ∨ e._states q = FastMarchingState.Alive) :
    (mark_alive e points)._states q = FastMarchingState.Alive := by
  unfold mark_alive
  induction points generalizing e with
  | nil =>
    rcases h with h | h
    · simp at h
    · exact h
  | cons p t ih =>
    simp only [List.foldl_cons]
    apply ih
    by_cases hq : q = p
    · right
      simp [assign, hq]
    · rcases h with h | h
      · rcases List.mem_cons.mp h with h1 | h1
        · exact absurd h1 hq
        · exact Or.inl h1
      · right
        simp only [assign_ne _ _ _ _ hq]
        exact h

theorem init_visit_alive (e : FastMarching T) (p d c : coords_type)
    (h : e._states c = FastMarchingState.Alive) :
    (init_visit p e d)._states c = FastMarchingState.Alive :=
  (init_visit_kept_alive e e c p d ⟨h, rfl, rfl⟩).1

theorem relax_trial (A : Arith T) (e : FastMarching T) (p d c : coords_type)
    (h : e._states c = FastMarchingState.Trial) :
    (relax A p e d)._states c = FastMarchingState.Trial := by
  rcases relax_shape A p e d with h1 | ⟨_, _, _, dv, pv, ts, heq, _, _⟩
  · rw [h1]
    exact h
  · rw [heq]
    by_cases hc : c = p + d
    · simp [assign, hc]
    · simp only [assign_ne _ _ _ _ hc]
      exact h

theorem mark_tracked (e : FastMarching T) (p : coords_type) (h : tracked e) :
    tracked { e with _states := assign e._states p FastMarchingState.Alive } := by
  intro x hx
  by_cases hc : x.coords = p
  · right
    simp [assign, hc]
  · simp only [assign_ne _ _ _ _ hc]
    exact h x hx

theorem init_visit_tracked (e : FastMarching T) (p d : coords_type) (h : tracked e) :
    tracked (init_visit p e d) := by
  rcases init_visit_shape p e d with h1 | ⟨_, _, _, heq⟩
  · rw [h1]
    exact h
  · rw [heq]
    intro x hx
    simp only [mem_multiset_insert] at hx
    by_cases hc : x.coords = p + d
    · left
      simp [assign, hc]
    · simp only [assign_ne _ _ _ _ hc]
      rcases hx with hx | hx
      · rw [hx] at hc
        exact absurd rfl hc
      · exact h x hx

theorem relax_tracked (A : Arith T) (e : FastMarching T) (p d : coords_type) (h : tracked e) :
    tracked (relax A p e d) := by
  rcases relax_shape A p e d with h1 | ⟨_, _, _, dv, pv, ts, heq, _, hts⟩
  · rw [h1]
    exact h
  · rw [heq]
    intro x hx
    simp only at hx
    by_cases hc : x.coords = p + d
    · left
      simp [assign, hc]
    · simp only [assign_ne _ _ _ _ hc]
      rcases hts with ⟨_, h2⟩ | ⟨_, h2⟩
      · rw [h2] at hx
        exact h x hx
      · rw [h2, mem_multiset_insert] at hx
        rcases hx with hx | hx
        · rw [hx] at hc
          exact absurd rfl hc
        · exact h x hx

theorem run_step_tracked (A : Arith T) (e : FastMarching T) (h : tracked e) :
    tracked (run_step A e) :=
  run_step_keeps A tracked
    (fun a top rest hts ha x hx => ha x (by rw [hts]; exact List.mem_cons_of_mem _ hx))
    (fun a p d _ ha => relax_tracked A a p d ha) e h

theorem initialize_alive_points_tracked (e : FastMarching T) (points : List coords_type)
    (h : tracked e) : tracked (initialize_alive_points e points) :=
  initialize_alive_points_keeps tracked (fun a p ha => mark_tracked a p ha)
    (fun a p d _ ha => init_visit_tracked a p d ha) e points h

theorem initialize_alive_points_writes_sound (e : FastMarching T) (points : List coords_type) :
    ∀ w ∈ initialize_alive_points_writes e points, sound_write w := by
  unfold initialize_alive_points_writes
  apply foldl_writes_all
    (fun a : FastMarching T => ∀ q ∈ points, a._states q = FastMarchingState.Alive) sound_write
  · intro a p _ ha
    exact foldl_keeps (fun a : FastMarching T => ∀ q ∈ points, a._states q = FastMarchingState.Alive)
      _ _deltas (fun a d _ h q hq => init_visit_alive a p d q (h q hq)) a ha
  · intro a p hp ha
    apply foldl_writes_all
      (fun a : FastMarching T => ∀ q ∈ points, a._states q = FastMarchingState.Alive) sound_write
    · exact fun a d _ h q hq => init_visit_alive a p d q (h q hq)
    · intro a d hd h w hw
      unfold init_visit_writes at hw
      simp only at hw
      split_ifs at hw with h1 h2
      · simp at hw
      · simp at hw
      · simp only [List.mem_singleton] at hw
        subst hw
        push_neg at h2
        have hne : p ≠ p + d := by
          intro hc
          rw [← hc] at h2
          exact h2.1 (h p hp)
        refine ⟨Or.inl ?_, d, hd, rfl⟩
        simp only [assign_ne _ _ _ _ hne]
        exact h p hp
    · exact ha
  · exact fun q hq => mark_alive_alive points e q (Or.inl hq)

theorem run_step_writes_sound (A : Arith T) (e : FastMarching T) (h : tracked e) :
    ∀ w ∈ run_step_writes A e, sound_write w := by
  unfold run_step_writes
  cases hts : e._trial_set with
  | nil => simp
  | cons top rest =>
    simp only
    split_ifs with halive
    · simp
    · have htop : e._states top.coords = FastMarchingState.Trial := by
        rcases h top (by simp [hts]) with h1 | h1
        · exact h1
        · exact absurd h1 halive
      apply foldl_writes_all
        (fun a : FastMarching T => a._states top.coords = FastMarchingState.Trial) sound_write
      · exact fun a d _ ha => relax_trial A a top.coords d top.coords ha
      · intro a d hd ha w hw
        unfold relax_writes at hw
        simp only at hw
        split_ifs at hw
        · simp at hw
        · simp at hw
        · simp only [List.mem_singleton] at hw
          subst hw
          exact ⟨Or.inr ha, d, hd, rfl⟩
        · simp at hw
      · exact htop

theorem run_loop_writes_sound (A : Arith T) (fuel : ℕ) (e : FastMarching T) (h : tracked e) :
    ∀ w ∈ run_loop_writes A fuel e, sound_write w := by
  induction fuel generalizing e with
  | zero => simp [run_loop_writes]
  | succ n ih =>
    unfold run_loop_writes
    split
    · simp
    · intro w hw
      rcases List.mem_append.mp hw with hw | hw
      · exact run_step_writes_sound A e h w hw
      · exact ih _ (run_step_tracked A e h) w hw

/-- Claim C18: in every execution that starts from a freshly constructed engine
and consists of `initialize_alive_points` calls and `run()` calls, every executed
write `_predecessors(n) = to_index(q)` finds `q` in state `Alive` or `Trial`
(never `Far`, never `Forbidden`), and `n` is one of the 8 neighbours of `q`. -/
theorem predecessor_writes_sound (A : Arith T) (width height : ℤ) (cost : coords_type → T)
    (limit : T) (ops : List Operation) (w : PredWrite)
    (hw : w ∈ execute_writes A ops (FastMarching.new A width height cost limit)) :
    (w.source_state = FastMarchingState.Alive ∨ w.source_state = FastMarchingState.Trial) ∧
    w.source_state ≠ FastMarchingState.Far ∧ w.source_state ≠ FastMarchingState.Forbidden ∧
    ∃ d ∈ _deltas, w.cell = w.source + d := by
  have key : ∀ (l : List Operation) (e : FastMarching T), tracked e →
      ∀ w ∈ execute_writes A l e, sound_write w := by
    intro l
    induction l with
    | nil => intro e _ w hw; simp [execute_writes] at hw
    | cons op t ih =>
      intro e he w hw
      cases op with
      | init points =>
        simp only [execute_writes, List.mem_append] at hw
        rcases hw with hw | hw
        · exact initialize_alive_points_writes_sound e points w hw
        · exact ih _ (initialize_alive_points_tracked e points he) w hw
      | run =>
        simp only [execute_writes, List.mem_append] at hw
        rcases hw with hw | hw
        · exact run_loop_writes_sound A _ e he w hw
        · exact ih _ (run_loop_keeps A tracked (fun a ha => run_step_tracked A a ha) _ e he) w hw
  have h0 : tracked (FastMarching.new A width height cost limit) := by
    intro x hx
    simp [FastMarching.new, reset] at hx
  obtain ⟨h1, h2⟩ := key ops _ h0 w hw
  refine ⟨h1, ?_, ?_, h2⟩
  · rcases h1 with h | h <;> rw [h] <;> decide
  · rcases h1 with h | h <;> rw [h] <;> decide

/-- Witness of `predecessor_writes_sound`: on the 4x3 grid with cost 1 at `(1, 1)`
and 4 elsewhere, `initialize_alive_points({(1,0)}); run()` executes the write
`_predecessors(2,1) = to_index(1,1)` while `(1, 1)` is `Trial`. -/
theorem predecessor_writes_sound_witness :
    (⟨(2, 1), (1, 1), FastMarchingState.Trial⟩ : PredWrite) ∈
      execute_writes ratArith [Operation.init [(1, 0)], Operation.run]
        (FastMarching.new ratArith 4 3 cost14 ratArith.maxValue) ∧
    (((⟨(2, 1), (1, 1), FastMarchingState.Trial⟩ : PredWrite).source_state =
        FastMarchingState.Alive ∨
      (⟨(2, 1), (1, 1), FastMarchingState.Trial⟩ : PredWrite).source_state =
        FastMarchingState.Trial) ∧
    (⟨(2, 1), (1, 1), FastMarchingState.Trial⟩ : PredWrite).source_state ≠
      FastMarchingState.Far ∧
    (⟨(2, 1), (1, 1), FastMarchingState.Trial⟩ : PredWrite).source_state ≠
      FastMarchingState.Forbidden ∧
    ∃ d ∈ _deltas, (⟨(2, 1), (1, 1), FastMarchingState.Trial⟩ : PredWrite).cell =
      (⟨(2, 1), (1, 1), FastMarchingState.Trial⟩ : PredWrite).source + d) :=
  ⟨by with_unfolding_all decide,
    predecessor_writes_sound ratArith 4 3 cost14 ratArith.maxValue
      [Operation.init [(1, 0)], Operation.run] _ (by with_unfolding_all decide)⟩

/-! ## The 5x5 scenario -/

theorem increase_priority_distances (e : FastMarching T) (p : coords_type) (v : T) :
    (increase_priority e p v)._distances = e._distances := by
  unfold increase_priority
  split_ifs <;> rfl

/-- The distance written by one neighbour visit of `run`, if any, is the value
of `solve_eikonal_equation`, and it is smaller than the previous distance. -/
theorem relax_distances_cases (A : Arith T) (p : coords_type) (e : FastMarching T)
    (d : coords_type) :
    (relax A p e d)._distances = e._distances ∨
    (outside_margin e (p + d) = false ∧
      solve_eikonal_equation A.sqrt units2 (p + d) (e._displacements (p + d)) e._distances <
        e._distances (p + d) ∧
      (relax A p e d)._distances = assign e._distances (p + d)
        (solve_eikonal_equation A.sqrt units2 (p + d) (e._displacements (p + d))
          e._distances)) := by
  by_cases hout : outside_margin e (p + d) = true
  · left
    simp [relax, hout]
  by_cases hst : e._states (p + d) = FastMarchingState.Alive ∨
      e._states (p + d) = FastMarchingState.Forbidden
  · left
    simp [relax, hst]
  simp only [Bool.not_eq_true] at hout
  by_cases hlt : solve_eikonal_equation A.sqrt units2 (p + d) (e._displacements (p + d))
      e._distances < e._distances (p + d)
  · right
    refine ⟨hout, hlt, ?_⟩
    unfold relax
    simp only [hout, hst, hlt, if_true, if_false, Bool.false_eq_true]
    split_ifs <;> simp [increase_priority_distances]
  · left
    unfold relax
    simp only [hout, hst, hlt, if_true, if_false, Bool.false_eq_true]
    split_ifs <;> simp [increase_priority_distances]

/-- With a non-negative `std::sqrt` and a non-negative inverse cost, the 2-D
solve is at least any lower bound of the distance field. -/
theorem solve_eikonal_two_ge (sqrt : T → T) (hs : ∀ x, 0 ≤ sqrt x) (x : coords_type)
    (u : coords_type → T) (b : T) (hu : ∀ c, b ≤ u c) (fx : T) (hfx : 0 ≤ 1 / fx) :
    b ≤ solve_eikonal_equation sqrt units2 x fx u := by
  unfold solve_eikonal_equation solve_eikonal_from axis_minima units2
  simp only [List.map_cons, List.map_nil, List.length_cons, List.length_nil, List.sum_cons,
    List.sum_nil]
  have h0 : b ≤ min (u (x - (1, 0))) (u (x + (1, 0))) := le_min (hu _) (hu _)
  have h1 : b ≤ min (u (x - (0, 1))) (u (x + (0, 1))) := le_min (hu _) (hu _)
  split_ifs with hd
  · have := hs (eikonal_delta [min (u (x - (1, 0))) (u (x + (1, 0))),
      min (u (x - (0, 1))) (u (x + (0, 1)))] fx)
    rw [le_div_iff₀ (by norm_num)]
    push_cast
    linarith
  · simp only [minCoeff, List.foldl_cons, List.foldl_nil]
    have := le_min h0 h1
    linarith

theorem outside_margin_origin (e : FastMarching T) : outside_margin e (0, 0) = true := by
  simp [outside_margin, _margin]

theorem relax_scenario5_bounds (A : Arith T) (hs : ∀ x, 0 ≤ A.sqrt x) (e : FastMarching T)
    (p d : coords_type) (h : scenario5_bounds A e) : scenario5_bounds A (relax A p e d) := by
  obtain ⟨hw, hh, hc, h1, h2, h3⟩ := h
  obtain ⟨g1, g2, g3, _⟩ := relax_same_grid A e e p d (same_grid_refl e)
  refine ⟨g1.trans hw, g2.trans hh, g3.trans hc, ?_⟩
  rcases relax_distances_cases A p e d with hd | ⟨hout, hlt, hd⟩
  · rw [hd]
    exact ⟨h1, h2, h3⟩
  · have hge : 1 ≤ solve_eikonal_equation A.sqrt units2 (p + d) (e._displacements (p + d))
        e._distances :=
      solve_eikonal_two_ge A.sqrt hs (p + d) e._distances 1 h1 _ (by rw [hc]; norm_num)
    rw [hd]
    refine ⟨?_, ?_, ?_⟩
    · intro c
      unfold assign
      split_ifs
      · exact hge
      · exact h1 c
    · intro c
      unfold assign
      split_ifs
      · exact le_trans (le_of_lt hlt) (h2 _)
      · exact h2 c
    · have hne : ((0, 0) : coords_type) ≠ p + d := by
        intro hc0
        rw [← hc0, outside_margin_origin] at hout
        exact absurd hout (by decide)
      rw [assign_ne _ _ _ _ hne]
      exact h3

theorem relax_scenario5_ring (A : Arith T) (hs : ∀ x, 0 ≤ A.sqrt x) (e : FastMarching T)
    (p d : coords_type) (h : scenario5_bounds A e ∧ scenario5_ring e) :
    scenario5_bounds A (relax A p e d) ∧ scenario5_ring (relax A p e d) := by
  refine ⟨relax_scenario5_bounds A hs e p d h.1, ?_⟩
  obtain ⟨⟨hw, hh, hc, h1, h2, h3⟩, hring⟩ := h
  rcases relax_distances_cases A p e d with hd | ⟨hout, hlt, hd⟩
  · intro x hx
    rw [hd]
    exact hring x hx
  · have hge : 1 ≤ solve_eikonal_equation A.sqrt units2 (p + d) (e._displacements (p + d))
        e._distances :=
      solve_eikonal_two_ge A.sqrt hs (p + d) e._distances 1 h1 _ (by rw [hc]; norm_num)
    intro x hx
    have hne : (2, 2) + x ≠ p + d := by
      intro hcx
      have := hring x hx
      rw [hcx] at this
      rw [this] at hlt
      exact absurd hge (not_le.mpr hlt)
    rw [hd, assign_ne _ _ _ _ hne]
    exact hring x hx

theorem init_visit_scenario5_bounds (A : Arith T) (hm : 1 ≤ A.maxValue) (e : FastMarching T)
    (p d : coords_type) (h : scenario5_bounds A e) : scenario5_bounds A (init_visit p e d) := by
  obtain ⟨hw, hh, hc, h1, h2, h3⟩ := h
  rcases init_visit_shape p e d with h0 | ⟨hout, _, _, heq⟩
  · rw [h0]
    exact ⟨hw, hh, hc, h1, h2, h3⟩
  · rw [heq]
    refine ⟨hw, hh, hc, ?_, ?_, ?_⟩
    · intro c
      simp only [assign, hc]
      split_ifs
      · exact le_refl _
      · exact h1 c
    · intro c
      simp only [assign, hc]
      split_ifs
      · exact hm
      · exact h2 c
    · have hne : ((0, 0) : coords_type) ≠ p + d := by
        intro hc0
        rw [← hc0, outside_margin_origin] at hout
        exact absurd hout (by decide)
      simp only [assign_ne _ _ _ _ hne]
      exact h3

theorem ratSqrt_nonneg (q : ℚ) : 0 ≤ ratSqrt q :=
  div_nonneg (Nat.cast_nonneg _) (Nat.cast_nonneg _)

/-- Claim C15: on the 5x5 grid of uniform cost 1 with the single seed `(2, 2)`,
after construction, `initialize_alive_points` and `run`, each of the 8
neighbours of `(2, 2)` has distance exactly 1 and no cell has a distance larger
than that of `(0, 0)` (which still holds `max()`); for every scalar arithmetic
whose `sqrt` is non-negative and whose `max()` is at least 1. -/
theorem scenario5_distances (A : Arith T) (hs : ∀ x, 0 ≤ A.sqrt x) (hm : 1 ≤ A.maxValue)
    (limit : T) :
    (∀ c : coords_type, c ≠ (2, 2) → |c.1 - 2| ≤ 1 → |c.2 - 2| ≤ 1 →
      (scenario5 A limit)._distances c = 1) ∧
    (∀ c : coords_type, (scenario5 A limit)._distances c ≤ (scenario5 A limit)._distances (0, 0)) ∧
    (scenario5 A limit)._trial_set = [] := by
  have hb0 : scenario5_bounds A (FastMarching.new A 5 5 (fun _ => 1) limit) :=
    ⟨rfl, rfl, rfl, fun _ => hm, fun _ => le_refl _, rfl⟩
  have hb1 : scenario5_bounds A
      (initialize_alive_points (FastMarching.new A 5 5 (fun _ => 1) limit) [(2, 2)]) :=
    initialize_alive_points_keeps (scenario5_bounds A) (fun a p h => h)
      (fun a p d _ h => init_visit_scenario5_bounds A hm a p d h) _ _ hb0
  have hr1 : scenario5_ring
      (initialize_alive_points (FastMarching.new A 5 5 (fun _ => 1) limit) [(2, 2)]) := by
    intro d hd
    have hmargin : outside_margin (FastMarching.new A 5 5 (fun _ => 1) limit) ((2, 2) + d) =
        false := by
      have : ∀ x ∈ _deltas, outside_margin (FastMarching.new A 5 5 (fun _ => (1 : T)) limit)
          ((2, 2) + x) = false := by
        simp [_deltas, initialize_deltas, outside_margin, _margin, FastMarching.new, reset]
      exact this d hd
    have hseed : (2, 2) + d ∉ [((2, 2) : coords_type)] := by
      have : ∀ x ∈ _deltas, ((2, 2) : coords_type) + x ∉ [((2, 2) : coords_type)] := by decide
      exact this d hd
    have h := initialize_alive_points_seeded (FastMarching.new A 5 5 (fun _ => 1) limit)
      [(2, 2)] (2, 2) d (by simp) hd hmargin hseed rfl
    rw [h.2.1, hb1.2.2.1]
  have hfinal : scenario5_bounds A (scenario5 A limit) ∧ scenario5_ring (scenario5 A limit) := by
    unfold scenario5 run
    exact run_loop_keeps A (fun a => scenario5_bounds A a ∧ scenario5_ring a)
      (fun a ha => run_step_keeps A (fun a => scenario5_bounds A a ∧ scenario5_ring a)
        (fun _ _ _ _ h => h) (fun a p d _ h => relax_scenario5_ring A hs a p d h) a ha)
      _ _ ⟨hb1, hr1⟩
  have hempty : (scenario5 A limit)._trial_set = [] := run_trial_set_empty A _
  revert hfinal hempty
  generalize scenario5 A limit = e
  intro hfinal hempty
  obtain ⟨⟨_, _, _, _, hle, h00⟩, hring⟩ := hfinal
  refine ⟨?_, ?_, hempty⟩
  · intro c hne hx hy
    obtain ⟨x, y⟩ := c
    simp only [abs_le] at hx hy
    have hmem : (x - 2, y - 2) ∈ _deltas := by
      have hx' : x = 1 ∨ x = 2 ∨ x = 3 := by omega
      have hy' : y = 1 ∨ y = 2 ∨ y = 3 := by omega
      rcases hx' with rfl | rfl | rfl <;> rcases hy' with rfl | rfl | rfl <;>
        simp_all [_deltas, initialize_deltas]
    have h := hring (x - 2, y - 2) hmem
    have heq : ((2, 2) : coords_type) + (x - 2, y - 2) = (x, y) := by
      ext <;> simp
    rw [heq] at h
    exact h
  · intro c
    rw [h00]
    exact hle c

/-- Witness of `scenario5_distances`: exact rational arithmetic. -/
theorem scenario5_distances_witness :
    (∀ c : coords_type, c ≠ (2, 2) → |c.1 - 2| ≤ 1 → |c.2 - 2| ≤ 1 →
      (scenario5 ratArith ratArith.maxValue)._distances c = 1) ∧
    (∀ c : coords_type, (scenario5 ratArith ratArith.maxValue)._distances c ≤
      (scenario5 ratArith ratArith.maxValue)._distances (0, 0)) ∧
    (scenario5 ratArith ratArith.maxValue)._trial_set = [] :=
  scenario5_distances ratArith ratSqrt_nonneg (by norm_num [ratArith]) ratArith.maxValue

/-! ## The minimum coefficient -/

theorem foldl_min_le_init (t : List T) (a : T) : t.foldl min a ≤ a := by
  induction t generalizing a with
  | nil => exact le_refl _
  | cons b t ih =>
    simp only [List.foldl_cons]
    exact le_trans (ih _) (min_le_left _ _)

theorem foldl_min_le_mem (t : List T) (a x : T) (hx : x ∈ t) : t.foldl min a ≤ x := by
  induction t generalizing a with
  | nil => simp at hx
  | cons b t ih =>
    simp only [List.foldl_cons]
    rcases List.mem_cons.mp hx with h | h
    · rw [h]
      exact le_trans (foldl_min_le_init t _) (min_le_right _ _)
    · exact ih _ h

theorem foldl_min_mem (t : List T) (a : T) : t.foldl min a = a ∨ t.foldl min a ∈ t := by
  induction t generalizing a with
  | nil => exact Or.inl rfl
  | cons b t ih =>
    simp only [List.foldl_cons, List.mem_cons]
    rcases ih (min a b) with h | h
    · rw [h]
      rcases min_choice a b with h1 | h1
      · exact Or.inl h1
      · exact Or.inr (Or.inl h1)
    · exact Or.inr (Or.inr h)

/-- The `minCoeff` of a vector is below every coefficient. -/
theorem minCoeff_le (us : List T) (x : T) (hx : x ∈ us) : minCoeff us ≤ x := by
  cases us with
  | nil => simp at hx
  | cons a t =>
    simp only [minCoeff]
    rcases List.mem_cons.mp hx with h | h
    · rw [h]
      exact foldl_min_le_init t a
    · exact foldl_min_le_mem t a x h

/-- The `minCoeff` of a non-empty vector is one of its coefficients. -/
theorem minCoeff_mem (us : List T) (h : us ≠ []) : minCoeff us ∈ us := by
  cases us with
  | nil => exact absurd rfl h
  | cons a t =>
    simp only [minCoeff, List.mem_cons]
    exact foldl_min_mem t a

/-- Column `j` of `umins` is `us` without its `j`-th coefficient. -/
theorem umins_col_eq (us : List T) (j : ℕ) (hj : j < us.length) :
    (if j = 0 then (us.drop 1).take (us.length - 1)
      else if j = us.length - 1 then us.take (us.length - 1)
      else us.take j ++ (us.drop (j + 1)).take (us.length - j - 1)) =
      us.take j ++ us.drop (j + 1) := by
  split_ifs with h0 h1
  · subst h0
    simp only [List.take_zero, List.nil_append, zero_add]
    exact List.take_of_length_le (by simp)
  · have h2 : us.drop (j + 1) = [] := List.drop_of_length_le (by omega)
    rw [h2, List.append_nil, ← h1]
  · congr 1
    exact List.take_of_length_le (by simp; omega)

theorem find_min_coefficient_eq (us : List T) (hN : 2 ≤ us.length) :
    find_min_coefficient us = minCoeff us := by
  have hne : us ≠ [] := by
    intro h
    rw [h] at hN
    simp at hN
  unfold find_min_coefficient
  simp only
  set cols := (List.range us.length).map fun j =>
    if j = 0 then (us.drop 1).take (us.length - 1)
    else if j = us.length - 1 then us.take (us.length - 1)
    else us.take j ++ (us.drop (j + 1)).take (us.length - j - 1) with hcols
  have hcol : ∀ col ∈ cols, ∃ j, j < us.length ∧ col = us.take j ++ us.drop (j + 1) := by
    intro col hc
    rw [hcols, List.mem_map] at hc
    obtain ⟨j, hj, hjc⟩ := hc
    rw [List.mem_range] at hj
    exact ⟨j, hj, by rw [← hjc, umins_col_eq us j hj]⟩
  have hmemcol : ∀ j, j < us.length → us.take j ++ us.drop (j + 1) ∈ cols := by
    intro j hj
    rw [hcols, List.mem_map]
    exact ⟨j, List.mem_range.mpr hj, umins_col_eq us j hj⟩
  apply le_antisymm
  · -- some column contains the least coefficient
    have hkey0 : ∀ m, m ∈ us → ∃ j, j < us.length ∧ m ∈ us.take j ++ us.drop (j + 1) := by
      intro m hm
      obtain ⟨s, t, hst⟩ := List.append_of_mem hm
      cases s with
      | nil => exact ⟨1, by omega, by rw [hst]; simp⟩
      | cons a s1 => exact ⟨0, by omega, by rw [hst]; simp⟩
    have hkey := hkey0 _ (minCoeff_mem us hne)
    obtain ⟨j, hj, hmem⟩ := hkey
    have h1 : minCoeff (cols.map minCoeff) ≤ minCoeff (us.take j ++ us.drop (j + 1)) :=
      minCoeff_le _ _ (List.mem_map.mpr ⟨_, hmemcol j hj, rfl⟩)
    exact le_trans h1 (minCoeff_le _ _ hmem)
  · -- every column minimum is a coefficient of `us`
    have hne2 : cols.map minCoeff ≠ [] := by
      have h0 := hmemcol 0 (by omega)
      intro h
      have : minCoeff (us.take 0 ++ us.drop (0 + 1)) ∈ cols.map minCoeff :=
        List.mem_map.mpr ⟨_, h0, rfl⟩
      rw [h] at this
      simp at this
    have h1 := minCoeff_mem _ hne2
    rw [List.mem_map] at h1
    obtain ⟨col, hc, hcm⟩ := h1
    obtain ⟨j, hj, hjc⟩ := hcol col hc
    have hcne : col ≠ [] := by
      intro h
      have hlen := congrArg List.length hjc
      rw [h] at hlen
      simp at hlen
      omega
    have h2 := minCoeff_mem col hcne
    rw [hcm] at h2
    have h3 : minCoeff (cols.map minCoeff) ∈ us := by
      rw [hjc, List.mem_append] at h2
      rcases h2 with h | h
      · exact List.mem_of_mem_take h
      · exact List.mem_of_mem_drop h
    exact minCoeff_le us _ h3

/-- Claim C19: for `N ≥ 2` values `us`, `find_min_coefficient(us)` is the minimum
coefficient of `us` (a coefficient of `us`, below every coefficient), equal to
`us.minCoeff()`; so the general-`N` fallback of `solve_eikonal_equation` returns
`min_i(u_i) + 1/f` like the `N = 2` branch. -/
theorem find_min_coefficient_is_min (sqrt : T → T) (us : List T) (fx : T)
    (hN : 2 ≤ us.length) :
    find_min_coefficient us ∈ us ∧
    (∀ u ∈ us, find_min_coefficient us ≤ u) ∧
    find_min_coefficient us = minCoeff us ∧
    solve_eikonal_from sqrt us fx =
      if eikonal_delta us fx ≥ 0 then
        (us.sum + sqrt (eikonal_delta us fx)) / (us.length : T)
      else minCoeff us + 1 / fx := by
  have hne : us ≠ [] := by
    intro h
    rw [h] at hN
    simp at hN
  have heq := find_min_coefficient_eq us hN
  refine ⟨?_, ?_, heq, ?_⟩
  · rw [heq]
    exact minCoeff_mem us hne
  · intro u hu
    rw [heq]
    exact minCoeff_le us u hu
  · unfold solve_eikonal_from
    simp only [heq]
    split_ifs <;> rfl

/-- Witness of `find_min_coefficient_is_min`: `N = 3`, values `(0, 10, 20)`,
cost 1 (discriminant `-597`). -/
theorem find_min_coefficient_is_min_witness :
    find_min_coefficient [(0 : ℚ), 10, 20] ∈ [(0 : ℚ), 10, 20] ∧
    (∀ u ∈ [(0 : ℚ), 10, 20], find_min_coefficient [(0 : ℚ), 10, 20] ≤ u) ∧
    find_min_coefficient [(0 : ℚ), 10, 20] = minCoeff [(0 : ℚ), 10, 20] ∧
    solve_eikonal_from ratSqrt [(0 : ℚ), 10, 20] 1 =
      if eikonal_delta [(0 : ℚ), 10, 20] 1 ≥ 0 then
        (([(0 : ℚ), 10, 20] : List ℚ).sum + ratSqrt (eikonal_delta [(0 : ℚ), 10, 20] 1)) /
          (([(0 : ℚ), 10, 20] : List ℚ).length : ℚ)
      else minCoeff [(0 : ℚ), 10, 20] + 1 / 1 :=
  find_min_coefficient_is_min ratSqrt [0, 10, 20] 1 (by decide)

/-! ## Bounds on the local solver -/

theorem length_mul_le_sum (us : List T) (m : T) (h : ∀ u ∈ us, m ≤ u) :
    (us.length : T) * m ≤ us.sum := by
  induction us with
  | nil => simp
  | cons a t ih =>
    have h1 := h a (List.mem_cons_self _ _)
    have h2 := ih (fun u hu => h u (List.mem_cons_of_mem _ hu))
    simp only [List.length_cons, List.sum_cons, Nat.cast_add, Nat.cast_one]
    linarith

theorem sq_le_sum_sq_sub (us : List T) (t m : T) (hm : m ∈ us) :
    (t - m) ^ 2 ≤ (us.map fun a => (t - a) ^ 2).sum := by
  induction us with
  | nil => simp at hm
  | cons a l ih =>
    simp only [List.map_cons, List.sum_cons]
    have hnn : 0 ≤ (l.map fun a => (t - a) ^ 2).sum := by
      apply List.sum_nonneg
      intro x hx
      obtain ⟨y, _, hy⟩ := List.mem_map.mp hx
      rw [← hy]
      exact sq_nonneg _
    rcases List.mem_cons.mp hm with h | h
    · rw [h]
      linarith
    · have := ih h
      have := sq_nonneg (t - a)
      linarith

/-- Claim C20: for `N ≥ 1` axis minima `us` and cost `fx > 0` (`s = 1/fx`), the
value `r` returned by `solve_eikonal_equation` satisfies
`min_i(u_i) ≤ r ≤ min_i(u_i) + s` in both branches, where `min_i(u_i)` is
`us.minCoeff()`, a coefficient of `us` below every coefficient (exact real
arithmetic). -/
theorem solve_eikonal_bounds (us : List ℝ) (fx : ℝ) (hN : us ≠ []) (hf : 0 < fx) :
    (minCoeff us ∈ us ∧ ∀ u ∈ us, minCoeff us ≤ u) ∧
    minCoeff us ≤ solve_eikonal_from Real.sqrt us fx ∧
    solve_eikonal_from Real.sqrt us fx ≤ minCoeff us + 1 / fx := by
  have hmem := minCoeff_mem us hN
  have hle := minCoeff_le us
  refine ⟨⟨hmem, hle⟩, ?_⟩
  have hs : 0 < 1 / fx := by positivity
  have hlen : 0 < us.length := List.length_pos.mpr hN
  have hNpos : (0 : ℝ) < (us.length : ℝ) := by exact_mod_cast hlen
  by_cases hdelta : 0 ≤ eikonal_delta us fx
  · rw [solve_eikonal_from_of_nonneg _ _ _ hdelta]
    have hsum := length_mul_le_sum us (minCoeff us) hle
    have hs0 : 0 ≤ Real.sqrt (eikonal_delta us fx) := Real.sqrt_nonneg _
    have hd : eikonal_delta us fx =
        us.sum ^ 2 - (us.length : ℝ) * (squaredNorm us - (1 / fx) ^ 2) := rfl
    have hmean := sq_le_sum_sq_sub us (us.sum / (us.length : ℝ)) (minCoeff us) hmem
    have hedge := sq_le_sum_sq_sub us (minCoeff us + 1 / fx) (minCoeff us) hmem
    rw [sum_sq_sub] at hmean hedge
    set N : ℝ := (us.length : ℝ) with hNdef
    set S : ℝ := us.sum with hSdef
    set Q : ℝ := squaredNorm us with hQdef
    set m : ℝ := minCoeff us with hmdef
    set s : ℝ := 1 / fx with hsdef
    have hNne : N ≠ 0 := ne_of_gt hNpos
    -- the mean is at most `m + s`
    have hmean2 : (S / N - m) ^ 2 ≤ s ^ 2 := by
      have e1 : N * (S / N) ^ 2 - 2 * (S / N) * S + Q = Q - S ^ 2 / N := by
        field_simp
        ring
      rw [e1] at hmean
      have e2 : Q - S ^ 2 / N ≤ s ^ 2 := by
        have h3 : N * (Q - S ^ 2 / N) = N * Q - S ^ 2 := by
          field_simp
          ring
        have h4 : N * (Q - S ^ 2 / N) ≤ N * s ^ 2 := by
          rw [h3]
          rw [hd] at hdelta
          linarith
        exact le_of_mul_le_mul_left h4 hNpos
      linarith
    have hmean3 : S / N - m ≤ s := by
      by_contra hc
      push_neg at hc
      have : s ^ 2 < (S / N - m) ^ 2 := by nlinarith
      linarith
    have hgap : 0 ≤ N * (m + s) - S := by
      have h5 : S / N * N = S := div_mul_cancel₀ _ hNne
      have h6 : (S / N - m) * N ≤ s * N := mul_le_mul_of_nonneg_right hmean3 (le_of_lt hNpos)
      linarith
    have hsq : eikonal_delta us fx ≤ (N * (m + s) - S) ^ 2 := by
      rw [hd]
      have h7 : (m + s - m) ^ 2 = s ^ 2 := by ring
      rw [h7] at hedge
      have h8 : 0 ≤ N * (N * (m + s) ^ 2 - 2 * (m + s) * S + Q - s ^ 2) :=
        mul_nonneg (le_of_lt hNpos) (by linarith)
      nlinarith
    have hroot : Real.sqrt (eikonal_delta us fx) ≤ N * (m + s) - S :=
      Real.sqrt_le_iff.mpr ⟨hgap, hsq⟩
    constructor
    · rw [le_div_iff₀ hNpos]
      linarith
    · rw [div_le_iff₀ hNpos]
      linarith
  · have hlen2 : 2 ≤ us.length := by
      by_contra hc
      have h1 : us.length = 1 := by omega
      obtain ⟨u, hu⟩ := List.length_eq_one.mp h1
      apply hdelta
      rw [hu]
      simp only [eikonal_delta, squaredNorm, List.map_cons, List.map_nil, List.sum_cons,
        List.sum_nil, List.length_cons, List.length_nil]
      have := sq_nonneg (1 / fx)
      push_cast
      nlinarith
    have hval : solve_eikonal_from Real.sqrt us fx = minCoeff us + 1 / fx := by
      unfold solve_eikonal_from
      simp only [ge_iff_le, hdelta, if_false, find_min_coefficient_eq us hlen2]
      split_ifs <;> rfl
    rw [hval]
    constructor <;> linarith

/-- Witness of `solve_eikonal_bounds`: axis minima `(0, 0)`, cost 1. -/
theorem solve_eikonal_bounds_witness :
    (minCoeff [(0 : ℝ), 0] ∈ [(0 : ℝ), 0] ∧ ∀ u ∈ [(0 : ℝ), 0], minCoeff [(0 : ℝ), 0] ≤ u) ∧
    minCoeff [(0 : ℝ), 0] ≤ solve_eikonal_from Real.sqrt [(0 : ℝ), 0] 1 ∧
    solve_eikonal_from Real.sqrt [(0 : ℝ), 0] 1 ≤ minCoeff [(0 : ℝ), 0] + 1 / 1 :=
  solve_eikonal_bounds [0, 0] 1 (by simp) one_pos

/-! ## The table of neighbour offsets -/

theorem pow_eq (N : ℕ) (x : ℤ) : pow N x = x ^ N := by
  induction N using Nat.strong_induction_on with
  | _ n ih =>
    match n with
    | 0 => simp [pow]
    | 1 => simp [pow]
    | k + 2 =>
      simp only [pow]
      rw [ih (k + 1) (by omega)]
      ring

theorem length_unit_box (N : ℕ) : (unit_box N).length = 3 ^ N := by
  induction N with
  | zero => rfl
  | succ n ih =>
    simp only [unit_box, List.length_append, List.length_map, ih]
    ring

theorem mem_unit_box (N : ℕ) (v : List ℤ) :
    v ∈ unit_box N ↔ v.length = N ∧ ∀ a ∈ v, a = -1 ∨ a = 0 ∨ a = 1 := by
  induction N generalizing v with
  | zero =>
    simp only [unit_box, List.mem_singleton]
    constructor
    · intro h
      subst h
      simp
    · intro h
      exact List.length_eq_zero.mp h.1
  | succ n ih =>
    simp only [unit_box, List.mem_append, List.mem_map]
    constructor
    · rintro ((⟨w, hw, rfl⟩ | ⟨w, hw, rfl⟩) | ⟨w, hw, rfl⟩) <;>
        · obtain ⟨h1, h2⟩ := (ih w).mp hw
          refine ⟨by simp [h1], ?_⟩
          intro a ha
          rcases List.mem_cons.mp ha with h | h
          · simp [h]
          · exact h2 a h
    · rintro ⟨h1, h2⟩
      cases v with
      | nil => simp at h1
      | cons a w =>
        have hw : w ∈ unit_box n :=
          (ih w).mpr ⟨by simpa using h1, fun b hb => h2 b (List.mem_cons_of_mem _ hb)⟩
        rcases h2 a (List.mem_cons_self _ _) with h | h | h
        · exact Or.inl (Or.inl ⟨w, hw, by rw [h]⟩)
        · exact Or.inl (Or.inr ⟨w, hw, by rw [h]⟩)
        · exact Or.inr ⟨w, hw, by rw [h]⟩

theorem nodup_unit_box (N : ℕ) : (unit_box N).Nodup := by
  induction N with
  | zero => simp [unit_box]
  | succ n ih =>
    have hinj : ∀ a : ℤ, Function.Injective (fun v : List ℤ => a :: v) := by
      intro a v w h
      exact (List.cons.inj h).2
    simp only [unit_box]
    rw [List.nodup_append, List.nodup_append]
    refine ⟨⟨ih.map (hinj _), ih.map (hinj _), ?_⟩, ih.map (hinj _), ?_⟩
    · intro v h1 h2
      obtain ⟨w1, _, rfl⟩ := List.mem_map.mp h1
      obtain ⟨w2, _, h⟩ := List.mem_map.mp h2
      have := (List.cons.inj h).1
      omega
    · intro v h1 h2
      obtain ⟨w2, _, h⟩ := List.mem_map.mp h2
      rcases List.mem_append.mp h1 with h3 | h3
      · obtain ⟨w1, _, rfl⟩ := List.mem_map.mp h3
        have := (List.cons.inj h).1
        omega
      · obtain ⟨w1, _, rfl⟩ := List.mem_map.mp h3
        have := (List.cons.inj h).1
        omega

theorem set_length_append {α : Type} (w : List α) (r c : α) (rest : List α) :
    (w ++ r :: rest).set w.length c = w ++ c :: rest := by
  induction w with
  | nil => rfl
  | cons a t ih => simp [List.set, ih]

/-- The loop writes the non-zero coordinates, in the order of the visit, into
the free slots `rest` that follow the written prefix. -/
theorem initialize_deltas_loop_eq (N : ℕ) (cs : List (List ℤ)) (written rest : List (List ℤ))
    (h : (cs.filter fun c => decide (c ≠ List.replicate N 0)).length ≤ rest.length) :
    initialize_deltas_loop N (written.length + rest.length) cs (written ++ rest, written.length) =
      some (written ++ (cs.filter fun c => decide (c ≠ List.replicate N 0)) ++
          rest.drop (cs.filter fun c => decide (c ≠ List.replicate N 0)).length,
        written.length + (cs.filter fun c => decide (c ≠ List.replicate N 0)).length) := by
  induction cs generalizing written rest with
  | nil => simp [initialize_deltas_loop]
  | cons c cs ih =>
    by_cases hc : c = List.replicate N 0
    · have hf : ((c :: cs).filter fun c => decide (c ≠ List.replicate N 0)) =
          cs.filter fun c => decide (c ≠ List.replicate N 0) := by
        simp [List.filter_cons, hc]
      rw [hf] at h ⊢
      simp only [initialize_deltas_loop, hc, if_true]
      exact ih written rest h
    · have hf : ((c :: cs).filter fun c => decide (c ≠ List.replicate N 0)) =
          c :: cs.filter fun c => decide (c ≠ List.replicate N 0) := by
        simp [List.filter_cons, hc]
      rw [hf] at h ⊢
      cases rest with
      | nil => simp at h
      | cons r rest1 =>
        simp only [List.length_cons] at h
        have hlt : written.length < written.length + (r :: rest1).length := by
          simp
        simp only [initialize_deltas_loop, hc, if_false, hlt, if_true, set_length_append]
        have h1 := ih (written ++ [c]) rest1 (by omega)
        have e1 : (written ++ [c]).length + rest1.length =
            written.length + (r :: rest1).length := by
          simp
          omega
        have e2 : written ++ [c] ++ rest1 = written ++ c :: rest1 := by simp
        have e3 : (written ++ [c]).length = written.length + 1 := by simp
        rw [e1, e2, e3] at h1
        rw [h1]
        simp
        omega

theorem length_filter_unit_box (N : ℕ) :
    ((unit_box N).filter fun c => decide (c ≠ List.replicate N 0)).length = 3 ^ N - 1 := by
  have hzero : List.replicate N (0 : ℤ) ∈ unit_box N := by
    rw [mem_unit_box]
    refine ⟨by simp, ?_⟩
    intro a ha
    rw [List.eq_of_mem_replicate ha]
    simp
  have hcount := List.count_eq_one_of_mem (nodup_unit_box N) hzero
  have hsplit := List.length_eq_countP_add_countP
    (fun c : List ℤ => decide (c ≠ List.replicate N 0)) (unit_box N)
  have hneg : List.countP (fun a => decide ¬(decide (a ≠ List.replicate N (0 : ℤ)) = true))
      (unit_box N) = 1 := by
    rw [← hcount]
    unfold List.count
    apply List.countP_congr
    intro c _
    simp
  rw [hneg, length_unit_box] at hsplit
  rw [← List.countP_eq_length_filter]
  omega

/-- Claim C14: for every dimension `N` (in particular `N ≥ 1`), when the
coordinates iterator visits every coordinate of the box `{-1,0,1}^N` exactly
once, the general branch of `initialize_deltas` makes no write past the end,
ends with the index at `pow<N>(3) - 1 = 3^N - 1` (every slot written), and its
table has `3^N - 1` entries, holds no entry twice, and holds exactly the vectors
of `{-1,0,1}^N` other than the zero vector; for `N = 2` the hard-coded table has
8 entries, none twice, and holds exactly the offsets `(dx, dy)` with
`|dx| ≤ 1`, `|dy| ≤ 1` other than `(0, 0)`. -/
theorem initialize_deltas_table (N : ℕ) (cs : List (List ℤ)) (hcs : cs.Perm (unit_box N)) :
    pow N 3 - 1 = 3 ^ N - 1 ∧
    (∃ table : List (List ℤ),
      initialize_deltas_general N cs = some (table, 3 ^ N - 1) ∧
      table.length = 3 ^ N - 1 ∧ table.Nodup ∧
      ∀ v : List ℤ, v ∈ table ↔
        (v.length = N ∧ (∀ a ∈ v, a = -1 ∨ a = 0 ∨ a = 1) ∧ v ≠ List.replicate N 0)) ∧
    (initialize_deltas.length = 8 ∧ initialize_deltas.Nodup ∧
      ∀ d : coords_type, d ∈ initialize_deltas ↔ (|d.1| ≤ 1 ∧ |d.2| ≤ 1 ∧ d ≠ (0, 0))) := by
  have hpow : pow N 3 - 1 = 3 ^ N - 1 := by rw [pow_eq]
  have hsize : (pow N 3 - 1).toNat = 3 ^ N - 1 := by
    rw [hpow]
    have h1 : (1 : ℤ) ≤ 3 ^ N := one_le_pow₀ (by norm_num)
    have h2 : 1 ≤ 3 ^ N := Nat.one_le_pow _ _ (by norm_num)
    zify [h2]
    rw [Int.toNat_of_nonneg (by omega)]
  have hperm := hcs.filter fun c => decide (c ≠ List.replicate N 0)
  have hlen : (cs.filter fun c => decide (c ≠ List.replicate N 0)).length = 3 ^ N - 1 := by
    rw [hperm.length_eq, length_filter_unit_box]
  refine ⟨hpow, ⟨cs.filter fun c => decide (c ≠ List.replicate N 0), ?_, hlen, ?_, ?_⟩, ?_⟩
  · have h := initialize_deltas_loop_eq N cs []
      (List.replicate (3 ^ N - 1) (List.replicate N 0)) (by rw [hlen, List.length_replicate])
    simp only [List.length_nil, zero_add, List.length_replicate, List.nil_append, hlen] at h
    unfold initialize_deltas_general
    rw [hsize, h]
    simp
  · rw [hperm.nodup_iff]
    exact (nodup_unit_box N).filter _
  · intro v
    rw [hperm.mem_iff, List.mem_filter, mem_unit_box]
    simp only [decide_eq_true_eq]
    tauto
  · refine ⟨rfl, by decide, ?_⟩
    intro d
    obtain ⟨x, y⟩ := d
    simp only [initialize_deltas, List.mem_cons, Prod.mk.injEq, List.mem_nil_iff, or_false,
      abs_le, ne_eq, not_and]
    constructor
    · intro h
      omega
    · intro h
      omega

/-- Witness of `initialize_deltas_table`: `N = 3`, the box visited in the order
of `unit_box`. -/
theorem initialize_deltas_table_witness :
    pow 3 3 - 1 = 3 ^ 3 - 1 ∧
    (∃ table : List (List ℤ),
      initialize_deltas_general 3 (unit_box 3) = some (table, 3 ^ 3 - 1) ∧
      table.length = 3 ^ 3 - 1 ∧ table.Nodup ∧
      ∀ v : List ℤ, v ∈ table ↔
        (v.length = 3 ∧ (∀ a ∈ v, a = -1 ∨ a = 0 ∨ a = 1) ∧ v ≠ List.replicate 3 0)) ∧
    (initialize_deltas.length = 8 ∧ initialize_deltas.Nodup ∧
      ∀ d : coords_type, d ∈ initialize_deltas ↔ (|d.1| ≤ 1 ∧ |d.2| ≤ 1 ∧ d ≠ (0, 0))) :=
  initialize_deltas_table 3 (unit_box 3) (List.Perm.refl _)

/-! ## Linear indices -/

/-- Claim C23: for a grid of width `w > 0`, `to_coords(to_index(p)) = p` for
every `p = (x, y)` with `0 ≤ x < w` and `y ≥ 0`, and
`to_index(to_coords(i)) = i` for every index `i` (truncating division, unbounded
integers). -/
theorem index_round_trip (e : FastMarching T) (hw : 0 < e.width) :
    (∀ p : coords_type, 0 ≤ p.1 → p.1 < e.width → 0 ≤ p.2 →
      to_coords e (to_index e p) = p) ∧
    (∀ i : ℤ, to_index e (to_coords e i) = i) := by
  constructor
  · intro p hx0 hx1 hy
    obtain ⟨x, y⟩ := p
    simp only at hx0 hx1 hy
    have hnn : 0 ≤ y * e.width + x := by
      have := mul_nonneg hy (le_of_lt hw)
      omega
    have hdiv : Int.tdiv (y * e.width + x) e.width = y := by
      rw [Int.tdiv_eq_ediv hnn (le_of_lt hw), add_comm,
        Int.add_mul_ediv_right _ _ (ne_of_gt hw), Int.ediv_eq_zero_of_lt hx0 hx1]
      simp
    simp only [to_coords, to_index, hdiv]
    ext
    · simp
    · rfl
  · intro i
    simp only [to_coords, to_index]
    ring

/-- Witness of `index_round_trip`: the 3x3 grid. -/
theorem index_round_trip_witness :
    0 < grid3.width ∧
    (∀ p : coords_type, 0 ≤ p.1 → p.1 < grid3.width → 0 ≤ p.2 →
      to_coords grid3 (to_index grid3 p) = p) ∧
    (∀ i : ℤ, to_index grid3 (to_coords grid3 i) = i) :=
  ⟨by decide, index_round_trip grid3 (by decide)⟩

/-! ## Seeds keep the sentinel distance -/

theorem mark_alive_fields (e : FastMarching T) (points : List coords_type) :
    (mark_alive e points)._distances = e._distances ∧
    (mark_alive e points)._predecessors = e._predecessors ∧
    (mark_alive e points)._trial_set = e._trial_set := by
  unfold mark_alive
  apply foldl_keeps
    (fun a : FastMarching T => a._distances = e._distances ∧
      a._predecessors = e._predecessors ∧ a._trial_set = e._trial_set)
  · intro a p _ ha
    exact ha
  · exact ⟨rfl, rfl, rfl⟩

/-- After `initialize_alive_points(seeds)` on a reset engine and any number of
iterations of `run`, a seed is `Alive` with distance `max()` and predecessor -1. -/
theorem seed_kept (A : Arith T) (e : FastMarching T) (seeds : List coords_type)
    (s : coords_type) (hs : s ∈ seeds) (fuel : ℕ) :
    (run_loop A fuel (initialize_alive_points (reset A e) seeds))._states s =
      FastMarchingState.Alive ∧
    (run_loop A fuel (initialize_alive_points (reset A e) seeds))._distances s = A.maxValue ∧
    (run_loop A fuel (initialize_alive_points (reset A e) seeds))._predecessors s = -1 := by
  obtain ⟨hd, hp, _⟩ := mark_alive_fields (reset A e) seeds
  have h0 : kept_alive (mark_alive (reset A e) seeds) s (mark_alive (reset A e) seeds) :=
    ⟨mark_alive_alive seeds _ s (Or.inl hs), rfl, rfl⟩
  have h1 : kept_alive (mark_alive (reset A e) seeds) s
      (initialize_alive_points (reset A e) seeds) := by
    unfold initialize_alive_points
    apply foldl_keeps (kept_alive (mark_alive (reset A e) seeds) s) _ seeds _ _ h0
    intro a p _ ha
    exact foldl_keeps (kept_alive (mark_alive (reset A e) seeds) s) _ _deltas
      (fun a d _ h => init_visit_kept_alive _ a s p d h) a ha
  have h2 := run_loop_keeps A (kept_alive (mark_alive (reset A e) seeds) s)
    (fun a ha => run_step_keeps A (kept_alive (mark_alive (reset A e) seeds) s)
      (fun _ _ _ _ h => h) (fun a p d _ h => relax_kept_alive A _ a s p d h) a ha)
    fuel _ h1
  obtain ⟨g1, g2, g3⟩ := h2
  refine ⟨g1, ?_, ?_⟩
  · rw [g2, hd]
    rfl
  · rw [g3, hp]
    rfl

/-- Claim C22: on a freshly reset engine, after `initialize_alive_points(seeds)`
(`fuel = 0`), after any number `fuel` of iterations of `run`, and after `run`,
every seed is `Alive`, with distance `max()` (it is never given a distance) and
predecessor `-1`; so a solve that reads a seed as a neighbour reads `max()`. -/
theorem seeds_keep_sentinel (A : Arith T) (e : FastMarching T) (seeds : List coords_type)
    (s : coords_type) (hs : s ∈ seeds) (fuel : ℕ) :
    ((run_loop A fuel (initialize_alive_points (reset A e) seeds))._states s =
        FastMarchingState.Alive ∧
      (run_loop A fuel (initialize_alive_points (reset A e) seeds))._distances s = A.maxValue ∧
      (run_loop A fuel (initialize_alive_points (reset A e) seeds))._predecessors s = -1) ∧
    ((run A (initialize_alive_points (reset A e) seeds))._states s = FastMarchingState.Alive ∧
      (run A (initialize_alive_points (reset A e) seeds))._distances s = A.maxValue ∧
      (run A (initialize_alive_points (reset A e) seeds))._predecessors s = -1) ∧
    (run A (initialize_alive_points (reset A e) seeds))._trial_set = [] :=
  ⟨seed_kept A e seeds s hs fuel, seed_kept A e seeds s hs _, run_trial_set_empty A _⟩

/-- Witness of `seeds_keep_sentinel`: the 4x3 grid with cost 1 at `(1, 1)` and 4
elsewhere, seed `(1, 0)`, one iteration; `max()` is not 0. -/
theorem seeds_keep_sentinel_witness :
    ratArith.maxValue ≠ 0 ∧
    ((run_loop ratArith 1 (initialize_alive_points (reset ratArith
        (FastMarching.new ratArith 4 3 cost14 ratArith.maxValue)) [(1, 0)]))._states (1, 0) =
        FastMarchingState.Alive ∧
      (run_loop ratArith 1 (initialize_alive_points (reset ratArith
        (FastMarching.new ratArith 4 3 cost14 ratArith.maxValue)) [(1, 0)]))._distances (1, 0) =
        ratArith.maxValue ∧
      (run_loop ratArith 1 (initialize_alive_points (reset ratArith
        (FastMarching.new ratArith 4 3 cost14 ratArith.maxValue)) [(1, 0)]))._predecessors
        (1, 0) = -1) ∧
    ((run ratArith (initialize_alive_points (reset ratArith
        (FastMarching.new ratArith 4 3 cost14 ratArith.maxValue)) [(1, 0)]))._states (1, 0) =
        FastMarchingState.Alive ∧
      (run ratArith (initialize_alive_points (reset ratArith
        (FastMarching.new ratArith 4 3 cost14 ratArith.maxValue)) [(1, 0)]))._distances (1, 0) =
        ratArith.maxValue ∧
      (run ratArith (initialize_alive_points (reset ratArith
        (FastMarching.new ratArith 4 3 cost14 ratArith.maxValue)) [(1, 0)]))._predecessors
        (1, 0) = -1) ∧
    (run ratArith (initialize_alive_points (reset ratArith
        (FastMarching.new ratArith 4 3 cost14 ratArith.maxValue)) [(1, 0)]))._trial_set = [] :=
  ⟨by norm_num [ratArith],
    seeds_keep_sentinel ratArith (FastMarching.new ratArith 4 3 cost14 ratArith.maxValue)
      [(1, 0)] (1, 0) (by simp) 1⟩

/-! ## `reset` and the trial set -/

theorem relax_propagated (A : Arith T) (e : FastMarching T) (p d n : coords_type)
    (h : propagated n e) : propagated n (relax A p e d) := by
  obtain ⟨h1, v, hv⟩ := h
  refine ⟨relax_trial A e p d n h1, v, ?_⟩
  rcases relax_shape A p e d with h0 | ⟨_, _, _, dv, pv, ts, heq, _, hts⟩
  · rw [h0]
    exact hv
  · rw [heq]
    rcases hts with ⟨_, h2⟩ | ⟨_, h2⟩
    · rw [h2]
      exact hv
    · rw [h2]
      exact (mem_multiset_insert _ _ _).mpr (Or.inr hv)

theorem relax_far_hit (A : Arith T) (e : FastMarching T) (p d : coords_type)
    (hout : outside_margin e (p + d) = false)
    (hfar : e._states (p + d) = FastMarchingState.Far) :
    propagated (p + d) (relax A p e d) := by
  have hst : (relax A p e d)._states (p + d) = FastMarchingState.Trial := by
    by_cases hlt : solve_eikonal_equation A.sqrt units2 (p + d) (e._displacements (p + d))
        e._distances < e._distances (p + d)
    · simp [relax, hout, hfar, hlt, increase_priority, assign_same]
    · simp [relax, hout, hfar, hlt, increase_priority, assign_same]
  refine ⟨hst, ?_⟩
  rcases relax_shape A p e d with h0 | ⟨_, _, _, dv, pv, ts, heq, _, hts⟩
  · rw [h0, hfar] at hst
    exact absurd hst (by decide)
  · rcases hts with ⟨h1, _⟩ | ⟨_, h2⟩
    · rw [hfar] at h1
      exact absurd h1 (by decide)
    · refine ⟨dv, ?_⟩
      rw [heq, h2]
      exact (mem_multiset_insert _ _ _).mpr (Or.inl rfl)

theorem relax_pending (A : Arith T) (e : FastMarching T) (p d n : coords_type)
    (h : pending n e) : pending n (relax A p e d) := by
  obtain ⟨hout, hst⟩ := h
  obtain ⟨g1, g2, _, _⟩ := relax_same_grid A e e p d (same_grid_refl e)
  refine ⟨by rw [outside_margin_congr e _ g1 g2]; exact hout, ?_⟩
  rcases hst with hfar | hprop
  · by_cases hn : n = p + d
    · subst hn
      exact Or.inr (relax_far_hit A e p d hout hfar)
    · left
      rcases relax_shape A p e d with h0 | ⟨_, _, _, dv, pv, ts, heq, _, _⟩
      · rw [h0]
        exact hfar
      · rw [heq]
        simp only [assign_ne _ _ _ _ hn]
        exact hfar
  · exact Or.inr (relax_propagated A e p d n hprop)

theorem relax_pending_hit (A : Arith T) (e : FastMarching T) (p d : coords_type)
    (h : pending (p + d) e) : propagated (p + d) (relax A p e d) := by
  obtain ⟨hout, hst⟩ := h
  rcases hst with hfar | hprop
  · exact relax_far_hit A e p d hout hfar
  · exact relax_propagated A e p d (p + d) hprop

/-- Claim C21: `reset` leaves the trial set (and the sizes, the cost view and
the limit) unchanged while it makes every cell `Far` with distance `max()` and
predecessor `-1`. With a non-empty trial set `top :: rest`, the next iteration
of `run` extracts `top` and, its cell being `Far` and not `Alive`, visits the
neighbours of `top.coords`: every neighbour inside the margin becomes `Trial`
with an entry in the trial set, and is still `Trial` when `run` has returned. -/
theorem reset_keeps_trial_set (A : Arith T) (e : FastMarching T) (top : CoordsValue T)
    (rest : List (CoordsValue T)) (hts : e._trial_set = top :: rest) (d : coords_type)
    (hd : d ∈ _deltas) (hmargin : outside_margin e (top.coords + d) = false) :
    (reset A e)._trial_set = e._trial_set ∧
    same_grid e (reset A e) ∧
    (∀ c : coords_type, (reset A e)._states c = FastMarchingState.Far ∧
      (reset A e)._distances c = A.maxValue ∧ (reset A e)._predecessors c = -1) ∧
    run_step A (reset A e) =
      _deltas.foldl (relax A top.coords) { reset A e with _trial_set := rest } ∧
    ((run_step A (reset A e))._states (top.coords + d) = FastMarchingState.Trial ∧
      ∃ v : T, (⟨top.coords + d, v⟩ : CoordsValue T) ∈ (run_step A (reset A e))._trial_set) ∧
    (run A (reset A e))._states (top.coords + d) = FastMarchingState.Trial := by
  have hstep : run_step A (reset A e) =
      _deltas.foldl (relax A top.coords) { reset A e with _trial_set := rest } := by
    simp [run_step, reset, hts]
  have hprop : propagated (top.coords + d) (run_step A (reset A e)) := by
    rw [hstep]
    apply foldl_reaches (pending (top.coords + d)) (propagated (top.coords + d)) _ _deltas d hd
    · exact fun a b _ h => relax_pending A a top.coords b _ h
    · exact fun a b _ h => relax_propagated A a top.coords b _ h
    · exact fun a h => relax_pending_hit A a top.coords d h
    · exact ⟨hmargin, Or.inl rfl⟩
  refine ⟨rfl, ⟨rfl, rfl, rfl, rfl⟩, fun c => ⟨rfl, rfl, rfl⟩, hstep, hprop, ?_⟩
  have hrun : ∀ (fuel : ℕ) (a : FastMarching T),
      a._states (top.coords + d) = FastMarchingState.Trial →
      (run_loop A fuel a)._states (top.coords + d) = FastMarchingState.Trial :=
    fun fuel a ha => run_loop_keeps A
      (fun a => a._states (top.coords + d) = FastMarchingState.Trial)
      (fun a ha => run_step_keeps A
        (fun a => a._states (top.coords + d) = FastMarchingState.Trial)
        (fun _ _ _ _ h => h) (fun a p x _ h => relax_trial A a p x _ h) a ha) fuel a ha
  unfold run
  have hne : (reset A e)._trial_set.length + far_count (reset A e) =
      ((reset A e)._trial_set.length + far_count (reset A e) - 1) + 1 := by
    have : (reset A e)._trial_set.length = rest.length + 1 := by
      show e._trial_set.length = rest.length + 1
      rw [hts]
      rfl
    omega
  rw [hne]
  have hunf : run_loop A
      (((reset A e)._trial_set.length + far_count (reset A e) - 1) + 1) (reset A e) =
      run_loop A ((reset A e)._trial_set.length + far_count (reset A e) - 1)
        (run_step A (reset A e)) := by
    have hts2 : (reset A e)._trial_set = top :: rest := hts
    rw [run_loop]
    simp [hts2]
  rw [hunf]
  exact hrun _ _ hprop.1

/-- Witness of `reset_keeps_trial_set`: the 4x3 grid with cost 1 at `(1, 1)` and
4 elsewhere after `initialize_alive_points({(1,0)})`: the trial set is
`[((1,1), 1), ((2,1), 4)]`, and `(2, 1) = (1, 1) + (1, 0)` lies inside the
margin. -/
theorem reset_keeps_trial_set_witness :
    (reset ratArith grid43)._trial_set = grid43._trial_set ∧
    same_grid grid43 (reset ratArith grid43) ∧
    (∀ c : coords_type, (reset ratArith grid43)._states c = FastMarchingState.Far ∧
      (reset ratArith grid43)._distances c = ratArith.maxValue ∧
      (reset ratArith grid43)._predecessors c = -1) ∧
    run_step ratArith (reset ratArith grid43) =
      _deltas.foldl (relax ratArith (⟨(1, 1), 1⟩ : CoordsValue ℚ).coords)
        { reset ratArith grid43 with _trial_set := [⟨(2, 1), 4⟩] } ∧
    ((run_step ratArith (reset ratArith grid43))._states
        ((⟨(1, 1), 1⟩ : CoordsValue ℚ).coords + (1, 0)) = FastMarchingState.Trial ∧
      ∃ v : ℚ, (⟨(⟨(1, 1), 1⟩ : CoordsValue ℚ).coords + (1, 0), v⟩ : CoordsValue ℚ) ∈
        (run_step ratArith (reset ratArith grid43))._trial_set) ∧
    (run ratArith (reset ratArith grid43))._states
      ((⟨(1, 1), 1⟩ : CoordsValue ℚ).coords + (1, 0)) = FastMarchingState.Trial :=
  reset_keeps_trial_set ratArith grid43 ⟨(1, 1), 1⟩ [⟨(2, 1), 4⟩]
    (by with_unfolding_all decide) (1, 0) (by decide) (by decide)

end DO.Sara
